import Mathlib

/-!
Verification of the prompt-compressor pipeline (structural segmenter,
budget planner, iterative reduction scheduler, content-addressed cache)
against its natural-language specification.

Modelling conventions (shallow embedding of the Python sources):
* document text and line content are `List Char`;
* Python `float` values are modelled as exact rationals `ℚ` (every finite
  binary64 value is a rational; rounding of individual operations is not
  modelled);
* the tokenizer is the source's fallback `len(s.split())` (whitespace word
  count); the optional external subword tokenizer is an unavailable
  collaborator and a single run uses one counting method consistently;
* cryptographic digests (sha1 / sha256 content hashes) are modelled as
  injective: the "hash" of a value is the value itself;
* external oracle calls (relevance rating, rewriting) are modelled as
  explicit response functions supplied as parameters.
-/

/-! ## Character classes and basic string operations (Python semantics) -/

/-- Python whitespace (`str.strip`, `str.split`, regex `\s`): ASCII
whitespace plus the Unicode whitespace characters Python treats as such. -/
def isPySpace (c : Char) : Bool :=
  c = ' ' || c = '\t' || c = '\n' || c = '\r' ||
  c.val = 11 || c.val = 12 ||                     -- vertical tab, form feed
  c.val = 28 || c.val = 29 || c.val = 30 || c.val = 31 ||
  c.val = 0x85 || c.val = 0xa0 || c.val = 0x1680 ||
  (0x2000 ≤ c.val && c.val ≤ 0x200a) ||
  c.val = 0x2028 || c.val = 0x2029 || c.val = 0x202f ||
  c.val = 0x205f || c.val = 0x3000

/-- Line-break characters of Python `str.splitlines` other than the
two-character break; `\r\n` is handled separately. -/
def isLineBreak (c : Char) : Bool :=
  c = '\n' || c = '\r' ||
  c.val = 11 || c.val = 12 ||
  c.val = 28 || c.val = 29 || c.val = 30 ||
  c.val = 0x85 || c.val = 0x2028 || c.val = 0x2029

/-- `text.splitlines(keepends=True)`: split after every line break,
keeping the break characters; `\r\n` counts as a single break.  A final
character always closes the last line whether or not it is a break. -/
def splitlinesKeepends : List Char → List (List Char)
  | [] => []
  | [c] => [[c]]
  | c :: d :: rest =>
      if c = '\r' && d = '\n' then ['\r', '\n'] :: splitlinesKeepends rest
      else if isLineBreak c then [c] :: splitlinesKeepends (d :: rest)
      else match splitlinesKeepends (d :: rest) with
        | [] => [[c]]
        | l :: ls => (c :: l) :: ls

/-- `s.strip()`: drop leading and trailing Python whitespace. -/
def pyStrip (s : List Char) : List Char :=
  ((s.dropWhile isPySpace).reverse.dropWhile isPySpace).reverse

/-- Word counting in the state machine form: the flag records whether the
previous character was a non-space (so the current word is already counted). -/
def wordCountAux : Bool → List Char → Nat
  | _, [] => 0
  | inWord, c :: cs =>
      if isPySpace c then wordCountAux false cs
      else (if inWord then 0 else 1) + wordCountAux true cs

/-- `len(s.split())`: the number of maximal non-whitespace runs.  This is the
source's token counter (`_tok_count` / the `tok` fallback in
`compressor.py`, `_tok` in `step4.py`). -/
def wordCount (s : List Char) : Nat := wordCountAux false s

/-- Python `int(q)` on a real value: truncation toward zero. -/
def pyInt (q : ℚ) : ℤ := if 0 ≤ q then ⌊q⌋ else ⌈q⌉

/-! ## Data model: chunks -/

/-- Structural kind of a block or chunk. -/
inductive BlockKind where
  | heading | code | list | paragraph | section
deriving DecidableEq, Repr

/-- A chunk record (the dicts built in `compressor.split` and mutated by the
scheduler).  `stop` is the source's `end` field (a Lean keyword).  The
content-hash part of the id is modelled by the chunk text itself together
with `idx`; `score`, `origTokens` (`_original_tokens`) and `attempts`
(`_compression_attempts`, dict default 0) are the rater's and scheduler's
bookkeeping fields, absent until first written. -/
structure Chunk where
  idx : Nat
  start : Nat
  stop : Nat
  text : List Char
  tokens : Nat
  kind : BlockKind
  score : Option ℚ := none
  origTokens : Option Nat := none
  attempts : Nat := 0
deriving DecidableEq, Repr

/-! ## Budget planner (`compressor.recount`, `compressor.plan`) -/

/-- `recount(chunks)`: recompute each chunk's token count with the (fallback)
tokenizer and return the updated list together with the total. -/
def recount (chunks : List Chunk) : List Chunk × Nat :=
  (chunks.map fun c => { c with tokens := wordCount c.text },
   (chunks.map fun c => wordCount c.text).sum)

/-- Total returned by `recount`. -/
def recountTotal (chunks : List Chunk) : Nat := (recount chunks).2

/-- Result dict of `plan`. -/
structure PlanResult where
  current : Nat
  target : ℤ
  reduce_by : ℚ
deriving DecidableEq, Repr

/-- `plan(chunks, reduce_by)`: `cur = recount(chunks)`;
`tgt = max(0, int(cur * (1.0 - reduce_by)))`. -/
def plan (chunks : List Chunk) (reduce_by : ℚ) : PlanResult :=
  let cur := recountTotal chunks
  let tgt := max 0 (pyInt ((cur : ℚ) * (1 - reduce_by)))
  { current := cur, target := tgt, reduce_by := reduce_by }

/-- Reduction-fraction parsing at the pipeline front end (`main.py`): a
percent-suffixed value is divided by 100; otherwise a value greater than 1
is treated as a percentage and divided by 100, and any other value is used
as given.  No clamping to the documented range is performed. -/
def mainReduceBy (isPercent : Bool) (val : ℚ) : ℚ :=
  if isPercent then val / 100
  else if 1 < val then val / 100 else val

/-! ### Planner lemmas -/

theorem pyInt_nonneg (q : ℚ) (h : 0 ≤ q) : pyInt q = ⌊q⌋ := by
  simp [pyInt, h]

theorem plan_target_eq_floor (chunks : List Chunk) (r : ℚ)
    (h1 : r ≤ 95/100) :
    (plan chunks r).target = ⌊(recountTotal chunks : ℚ) * (1 - r)⌋ := by
  have hr : (0:ℚ) ≤ 1 - r := by linarith
  have hprod : (0:ℚ) ≤ (recountTotal chunks : ℚ) * (1 - r) :=
    mul_nonneg (by positivity) hr
  have hfl : (0:ℤ) ≤ ⌊(recountTotal chunks : ℚ) * (1 - r)⌋ :=
    Int.floor_nonneg.mpr hprod
  simp only [plan, pyInt_nonneg _ hprod]
  omega

/-- C7: for every chunk list and reduce_by in the documented range
[0, 0.95], `plan` returns the record current/target/reduce_by with
target = floor(current * (1 - reduce_by)); in particular a 1000-token
corpus with reduce_by = 0.30 yields target 700, reduce_by = 0 yields
target = current, and reduce_by = 0.95 yields target = floor(0.05*current). -/
theorem C7_plan_arithmetic (chunks : List Chunk) (r : ℚ)
    (h0 : 0 ≤ r) (h1 : r ≤ 95/100) :
    (plan chunks r).current = recountTotal chunks ∧
    (plan chunks r).reduce_by = r ∧
    (plan chunks r).target = ⌊(recountTotal chunks : ℚ) * (1 - r)⌋ ∧
    (recountTotal chunks = 1000 → r = 3/10 → (plan chunks r).target = 700) ∧
    (r = 0 → (plan chunks r).target = recountTotal chunks) ∧
    (r = 95/100 →
      (plan chunks r).target = ⌊(5/100 : ℚ) * (recountTotal chunks : ℚ)⌋) := by
  refine ⟨rfl, rfl, plan_target_eq_floor chunks r h1, ?_, ?_, ?_⟩
  · intro hc hr
    rw [plan_target_eq_floor chunks r h1, hc, hr]
    norm_num
  · intro hr
    rw [plan_target_eq_floor chunks r h1, hr]
    norm_num
  · intro hr
    rw [plan_target_eq_floor chunks r h1, hr, mul_comm]
    norm_num

/-- Witness for C7 at the empty chunk list and reduce_by = 0.30. -/
theorem C7_plan_arithmetic_witness :
    (0 : ℚ) ≤ 3/10 ∧ (3/10 : ℚ) ≤ 95/100 ∧
    ((plan [] (3/10)).current = recountTotal [] ∧
     (plan [] (3/10)).reduce_by = 3/10 ∧
     (plan [] (3/10)).target = ⌊(recountTotal [] : ℚ) * (1 - 3/10)⌋ ∧
     (recountTotal [] = 1000 → (3/10 : ℚ) = 3/10 → (plan [] (3/10)).target = 700) ∧
     ((3/10 : ℚ) = 0 → (plan [] (3/10)).target = recountTotal []) ∧
     ((3/10 : ℚ) = 95/100 →
       (plan [] (3/10)).target = ⌊(5/100 : ℚ) * (recountTotal [] : ℚ)⌋)) :=
  ⟨by norm_num, by norm_num,
   C7_plan_arithmetic [] (3/10) (by norm_num) (by norm_num)⟩

/-- C10: `plan` is total over all rational reduce_by values, not only the
documented range: it always returns, its target is non-negative, and
reduce_by greater than 1 yields target = 0 rather than a negative target. -/
theorem C10_plan_total_all_inputs (chunks : List Chunk) (r : ℚ) :
    0 ≤ (plan chunks r).target ∧ (1 < r → (plan chunks r).target = 0) := by
  constructor
  · exact le_max_left 0 _
  · intro hr
    have hq : (recountTotal chunks : ℚ) * (1 - r) ≤ 0 :=
      mul_nonpos_of_nonneg_of_nonpos (by positivity) (by linarith)
    have : pyInt ((recountTotal chunks : ℚ) * (1 - r)) ≤ 0 := by
      unfold pyInt
      split
      · exact Int.floor_nonpos hq
      · exact le_trans (Int.ceil_le.mpr (by simpa using hq)) le_rfl
    simp only [plan]
    omega

/-- Witness for C10 at the empty chunk list and reduce_by = 2. -/
theorem C10_plan_total_all_inputs_witness :
    0 ≤ (plan [] 2).target ∧ (plan [] 2).target = 0 :=
  ⟨(C10_plan_total_all_inputs [] 2).1,
   (C10_plan_total_all_inputs [] 2).2 (by norm_num)⟩

/-- C8 counterexample: the front end performs no clamping — the in-range
check is absent, so the out-of-range fraction 0.97 (not percent-suffixed,
not greater than 1) flows into `plan` unchanged, exceeding 0.95. -/
theorem C8_counterexample_no_clamp :
    mainReduceBy false (97/100) = 97/100 ∧
    ¬ (mainReduceBy false (97/100) ≤ 95/100) ∧
    (plan [] (mainReduceBy false (97/100))).reduce_by = 97/100 := by
  refine ⟨?_, ?_, ?_⟩ <;> simp [mainReduceBy, plan] <;> norm_num

/-- C8 amended: out-of-range reduction fractions never raise an error, but
they are not clamped into [0, 0.95] either: the front end only normalizes
values greater than 1 by dividing by 100 (percent interpretation), passes
the resulting value to `plan` unchanged, and `plan` itself merely floors
the target at 0. -/
theorem C8_reduce_by_passthrough (pct : Bool) (val : ℚ) (chunks : List Chunk) :
    (plan chunks (mainReduceBy pct val)).reduce_by = mainReduceBy pct val ∧
    0 ≤ (plan chunks (mainReduceBy pct val)).target ∧
    (pct = false → 1 < val → mainReduceBy pct val = val / 100) ∧
    (pct = false → val ≤ 1 → mainReduceBy pct val = val) := by
  refine ⟨rfl, le_max_left 0 _, ?_, ?_⟩
  · intro hp hv
    simp [mainReduceBy, hp, hv]
  · intro hp hv
    simp [mainReduceBy, hp, not_lt.mpr hv]

/-- Witness for C8 amended at pct = false, val = 0.97, empty chunk list. -/
theorem C8_reduce_by_passthrough_witness :
    (plan [] (mainReduceBy false (97/100))).reduce_by =
      mainReduceBy false (97/100) ∧
    0 ≤ (plan [] (mainReduceBy false (97/100))).target ∧
    mainReduceBy false (97/100) = 97/100 :=
  ⟨(C8_reduce_by_passthrough false (97/100) []).1,
   (C8_reduce_by_passthrough false (97/100) []).2.1,
   (C8_reduce_by_passthrough false (97/100) []).2.2.2 rfl (by norm_num)⟩

/-! ## Relevance rater (`rater.rate_chunks_async`)

The oracle call itself is an external collaborator; its responses are
supplied as a function from chunk position to the response's
`output_text` (`none` models a missing attribute).  The bounded-semaphore
fan-out is not observable in the final list state: each response is
written to exactly the one chunk it belongs to. -/

/-- Numeric value of a run of decimal digits. -/
def digitsVal (ds : List Char) : Nat :=
  ds.foldl (fun a c => 10 * a + (c.toNat - 48)) 0

/-- First match of the pattern `\d+(?:\.\d+)?` in a string, as a rational
(the model of `re.search` followed by `float(m.group(0))`); `none` when the
string contains no digit. -/
def findNumber : List Char → Option ℚ
  | [] => none
  | c :: rest =>
      if c.isDigit then
        let intDigits := c :: rest.takeWhile Char.isDigit
        let rest2 := rest.dropWhile Char.isDigit
        some (match rest2 with
          | '.' :: d :: rest3 =>
              if d.isDigit then
                let fracDigits := d :: rest3.takeWhile Char.isDigit
                (digitsVal intDigits : ℚ) +
                  (digitsVal fracDigits : ℚ) / ((10 ^ fracDigits.length : Nat) : ℚ)
              else (digitsVal intDigits : ℚ)
          | _ => (digitsVal intDigits : ℚ))
      else findNumber rest

/-- `float(m.group(0)) if m else 5.0` applied to the stripped output. -/
def parseScore (out : List Char) : ℚ :=
  match findNumber out with
  | some q => q
  | none => 5

/-- One chunk's update in `rate_chunks_async`: strip the response's
`output_text` (`or ""` for a missing one) and store the parsed score. -/
def rateOne (raw : Option (List Char)) (ch : Chunk) : Chunk :=
  { ch with score := some (parseScore (pyStrip (raw.getD []))) }

/-- The rating pass over the chunk list; `out i` is the response for the
chunk at position `i`. -/
def rateChunksGo (out : Nat → Option (List Char)) : Nat → List Chunk → List Chunk
  | _, [] => []
  | i, ch :: rest => rateOne (out i) ch :: rateChunksGo out (i + 1) rest

/-- `rate_chunks(chunks)` with the response function `out`. -/
def rateChunks (chunks : List Chunk) (out : Nat → Option (List Char)) :
    List Chunk :=
  rateChunksGo out 0 chunks

theorem digitsVal_cast_nonneg (ds : List Char) : (0:ℚ) ≤ (digitsVal ds : ℚ) := by
  positivity

theorem findNumber_nonneg (s : List Char) (q : ℚ) (h : findNumber s = some q) :
    0 ≤ q := by
  induction s with
  | nil => simp [findNumber] at h
  | cons c rest ih =>
      rw [findNumber] at h
      by_cases hd : c.isDigit
      · simp only [hd, if_true, Option.some.injEq] at h
        subst h
        split
        · split
          · have := digitsVal_cast_nonneg
            positivity
          · positivity
        · positivity
      · simp only [hd, if_false] at h
        exact ih h

theorem parseScore_nonneg (s : List Char) : 0 ≤ parseScore s := by
  unfold parseScore
  split
  · exact findNumber_nonneg s _ (by assumption)
  · norm_num

theorem rateChunksGo_get (out : Nat → Option (List Char)) (k : Nat)
    (l : List Chunk) (i : Nat) (h : i < (rateChunksGo out k l).length) :
    ∃ h' : i < l.length,
      (rateChunksGo out k l).get ⟨i, h⟩ = rateOne (out (k + i)) (l.get ⟨i, h'⟩) := by
  induction l generalizing k i with
  | nil => simp [rateChunksGo] at h
  | cons ch rest ih =>
      cases i with
      | zero => exact ⟨by simp, by simp [rateChunksGo]⟩
      | succ j =>
          have hj : j < (rateChunksGo out (k + 1) rest).length := by
            simpa [rateChunksGo] using h
          obtain ⟨h', heq⟩ := ih (k + 1) j hj
          refine ⟨by simpa using Nat.succ_lt_succ h', ?_⟩
          simpa [rateChunksGo, Nat.add_assoc, Nat.add_comm 1 j] using heq

/-- A concrete chunk used to instantiate claims on sample inputs. -/
def sampleChunk : Chunk :=
  { idx := 0, start := 0, stop := 11, text := "hello world".toList,
    tokens := 2, kind := BlockKind.paragraph }

/-- C9 counterexample: the rater performs no clamping of parsed scores, so
the oracle output "42" leaves a chunk with score 42, outside [0, 10]. -/
theorem C9_counterexample_score_above_ten :
    (rateChunks [sampleChunk] (fun _ => some "42".toList)).map Chunk.score
      = [some 42] ∧ ¬ ((42:ℚ) ≤ 10) := by
  constructor
  · decide
  · norm_num

/-- C9 amended: after `rate_chunks` every chunk carries a score, namely the
first decimal number parsed from the stripped oracle output; the score is
always non-negative (the pattern cannot produce a negative number) and
defaults to the neutral 5.0 when no number parses, but it is not clamped
above: it lies in [0, 10] only when the parsed number is at most 10. -/
theorem C9_scores_parsed_not_clamped (chunks : List Chunk)
    (out : Nat → Option (List Char)) :
    (∀ c ∈ rateChunks chunks out, ∃ q : ℚ, c.score = some q ∧ 0 ≤ q) ∧
    (∀ i : Nat, ∀ h : i < (rateChunks chunks out).length,
      ((rateChunks chunks out).get ⟨i, h⟩).score =
        some (parseScore (pyStrip ((out i).getD [])))) ∧
    (∀ i : Nat, ∀ h : i < (rateChunks chunks out).length,
      findNumber (pyStrip ((out i).getD [])) = none →
        ((rateChunks chunks out).get ⟨i, h⟩).score = some 5) ∧
    (∀ i : Nat, ∀ h : i < (rateChunks chunks out).length, ∀ q : ℚ,
      findNumber (pyStrip ((out i).getD [])) = some q → q ≤ 10 →
        ∃ s : ℚ, ((rateChunks chunks out).get ⟨i, h⟩).score = some s ∧
          0 ≤ s ∧ s ≤ 10) := by
  have hget : ∀ i : Nat, ∀ h : i < (rateChunks chunks out).length,
      ((rateChunks chunks out).get ⟨i, h⟩).score =
        some (parseScore (pyStrip ((out i).getD []))) := by
    intro i h
    obtain ⟨h', heq⟩ := rateChunksGo_get out 0 chunks i h
    have heq2 : (rateChunks chunks out).get ⟨i, h⟩ =
        rateOne (out (0 + i)) (chunks.get ⟨i, h'⟩) := heq
    rw [heq2]
    simp [rateOne]
  refine ⟨?_, hget, ?_, ?_⟩
  · intro c hc
    obtain ⟨⟨i, hi⟩, rfl⟩ := List.mem_iff_get.mp hc
    exact ⟨parseScore (pyStrip ((out i).getD [])), hget i hi,
      parseScore_nonneg _⟩
  · intro i h hnone
    rw [hget i h, parseScore, hnone]
  · intro i h q hsome hle
    refine ⟨q, ?_, findNumber_nonneg _ q hsome, hle⟩
    rw [hget i h, parseScore, hsome]

/-- Witness for C9 amended at one chunk and the oracle output "7". -/
theorem C9_scores_parsed_not_clamped_witness :
    findNumber (pyStrip (((fun _ : Nat => some "7".toList) 0).getD []))
      = some 7 ∧ (7 : ℚ) ≤ 10 ∧
    (∃ s : ℚ,
      ((rateChunks [sampleChunk] (fun _ => some "7".toList)).get
        ⟨0, by decide⟩).score = some s ∧ 0 ≤ s ∧ s ≤ 10) :=
  ⟨by decide, by norm_num,
   (C9_scores_parsed_not_clamped [sampleChunk] (fun _ => some "7".toList)).2.2.2
     0 (by decide) 7 (by decide) (by norm_num)⟩

/-! ## Content-addressed result cache (`cache.py`)

The SQLite table keyed by `content_hash` is modelled as an association
list with insert-or-replace semantics; the sha256 digest of the
canonical serialization of (stripped text, intent or "", reduction
fraction) is modelled as injective, i.e. the key IS that triple.
Timestamps (`created_at` / `accessed_at`) are not modelled. -/

/-- Cache key: `_hash_content(text, intent, reduction_ratio)`. -/
def hashContent (text : List Char) (intent : Option (List Char))
    (reductionFraction : ℚ) : List Char × List Char × ℚ :=
  (pyStrip text, intent.getD [], reductionFraction)

/-- Strip the underscore-prefixed internal bookkeeping fields before
serialization (`clean_chunks` in `cache_result`): in the chunk record
those are `_original_tokens` and `_compression_attempts`. -/
def cleanChunk (c : Chunk) : Chunk :=
  { c with origTokens := none, attempts := 0 }

/-- A row of the `compression_cache` table (timestamps omitted). -/
structure CacheEntry where
  original_text : List Char
  compressed_text : List Char
  chunks_data : List Chunk
  original_tokens : Nat
  final_tokens : Nat
  reductionFraction : ℚ
  intent : Option (List Char)
deriving DecidableEq

/-- The cache store: at most one entry per key (primary key). -/
def CacheDB := List ((List Char × List Char × ℚ) × CacheEntry)

/-- `get_cached_result`: the stored entry for the key, if any. -/
def cacheLookup (db : CacheDB) (k : List Char × List Char × ℚ) :
    Option CacheEntry :=
  (db.find? (fun p => p.1 = k)).map (fun p => p.2)

/-- `INSERT OR REPLACE`: drop any row with the key, add the new row. -/
def cacheInsert (db : CacheDB) (k : List Char × List Char × ℚ)
    (e : CacheEntry) : CacheDB :=
  db.filter (fun p => !(p.1 = k)) ++ [(k, e)]

/-- The stats dict produced by the pipeline's `perform_compression`. -/
structure FuncStats where
  original_tokens : Nat
  target_tokens : Nat
  final_tokens : Nat
deriving DecidableEq

/-- The stats dict returned by `cached_compress`: on a hit it carries the
cached token counts, the stored reduction fraction and the hit flag (and
no target); on a miss it is the pipeline's stats plus `cache_hit = False`. -/
structure OutStats where
  original_tokens : Nat
  final_tokens : Nat
  target_tokens : Option Nat
  reductionFraction : Option ℚ
  cache_hit : Bool
deriving DecidableEq

/-- `cached_compress(text, compress_func, intent, reduction_ratio)`:
query the cache first; on a hit return the stored compressed text,
chunk snapshot and stats with the hit flag set, leaving the store
unchanged; on a miss run `compress_func`, store the result (with the
internal chunk fields stripped) and return it with the flag cleared.
The returned store models the database state after the call. -/
def cached_compress (db : CacheDB) (text : List Char)
    (intent : Option (List Char)) (reductionFraction : ℚ)
    (func : Unit → List Char × List Chunk × FuncStats) :
    (List Char × List Chunk × OutStats) × CacheDB :=
  let key := hashContent text intent reductionFraction
  match cacheLookup db key with
  | some e =>
      ((e.compressed_text, e.chunks_data,
        { original_tokens := e.original_tokens,
          final_tokens := e.final_tokens,
          target_tokens := none,
          reductionFraction := some e.reductionFraction,
          cache_hit := true }), db)
  | none =>
      let r := func ()
      let e : CacheEntry :=
        { original_text := text,
          compressed_text := r.1,
          chunks_data := r.2.1.map cleanChunk,
          original_tokens := r.2.2.original_tokens,
          final_tokens := r.2.2.final_tokens,
          reductionFraction := reductionFraction,
          intent := intent }
      ((r.1, r.2.1,
        { original_tokens := r.2.2.original_tokens,
          final_tokens := r.2.2.final_tokens,
          target_tokens := some r.2.2.target_tokens,
          reductionFraction := none,
          cache_hit := false }), cacheInsert db key e)

theorem cacheLookup_insert_self (db : CacheDB)
    (k : List Char × List Char × ℚ) (e : CacheEntry) :
    cacheLookup (cacheInsert db k e) k = some e := by
  unfold cacheLookup cacheInsert
  rw [List.find?_append]
  have hnone : (db.filter (fun p => !(p.1 = k))).find? (fun p => p.1 = k)
      = none := by
    rw [List.find?_eq_none]
    intro p hp
    have := (List.mem_filter.mp hp).2
    simpa using this
  rw [hnone]
  simp

/-- C4: two `cached_compress` invocations with identical (text, intent,
reduction fraction) return identical compressed output; the second call
reports `cache_hit = true`, leaves the store unchanged, and its result
does not depend on the compression function it was given (the pipeline
components behind the function are skipped). -/
theorem C4_cache_idempotent (db : CacheDB) (text : List Char)
    (intent : Option (List Char)) (rf : ℚ)
    (f g g' : Unit → List Char × List Chunk × FuncStats) :
    ((cached_compress (cached_compress db text intent rf f).2
        text intent rf g).1.1 =
      (cached_compress db text intent rf f).1.1) ∧
    ((cached_compress (cached_compress db text intent rf f).2
        text intent rf g).1.2.2.cache_hit = true) ∧
    ((cached_compress (cached_compress db text intent rf f).2
        text intent rf g).2 =
      (cached_compress db text intent rf f).2) ∧
    ((cached_compress (cached_compress db text intent rf f).2
        text intent rf g) =
      (cached_compress (cached_compress db text intent rf f).2
        text intent rf g')) := by
  unfold cached_compress
  cases hdb : cacheLookup db (hashContent text intent rf) with
  | some e =>
      simp only [hdb]
      simp [hdb]
  | none =>
      simp only [hdb]
      simp [cacheLookup_insert_self]

/-! ## Iterative reduction scheduler (`step4.compress_to_target`)

The rewrite oracle is an external collaborator: a batch's responses are
modelled by a function from task position to a result — either a raised
exception (covering failures and timeouts, which surface identically
through `asyncio.gather(..., return_exceptions=True)`) or a returned
`output_text`.  The bounded concurrent fan-out is not observable in the
final state: each response is applied to the one chunk it belongs to,
in task order, exactly as the apply loop does. -/

instance : Inhabited Chunk :=
  ⟨{ idx := 0, start := 0, stop := 0, text := [], tokens := 0,
     kind := BlockKind.paragraph }⟩

/-- Result of one rewrite request. -/
inductive RewriteResp where
  | exn : RewriteResp
  | ok : Option (List Char) → RewriteResp

/-- `out = (getattr(rsp, "output_text", None) or "").strip() or t`. -/
def rewriteOut (raw : Option (List Char)) (t : List Char) : List Char :=
  let s := pyStrip (raw.getD [])
  if s = [] then t else s

/-- `total()`: sum of fresh token counts of all chunk texts. -/
def totalTokens (chunks : List Chunk) : Nat :=
  (chunks.map fun c => wordCount c.text).sum

/-- `_key(ch)` as a boolean order: score ascending (dict default 5.0),
then token count descending. -/
def keyLe (a b : Chunk) : Bool :=
  decide (a.score.getD 5 < b.score.getD 5) ||
  (decide (a.score.getD 5 = b.score.getD 5) && decide (b.tokens ≤ a.tokens))

/-- Stable insertion into a sorted list: the new element goes after every
element already ordered no later than it. -/
def insertSorted (le : α → α → Bool) (x : α) : List α → List α
  | [] => [x]
  | y :: ys => if le y x then y :: insertSorted le x ys else x :: y :: ys

/-- Stable sort (insertion sort).  Python's `sorted` is a stable sort by a
total preorder key, and stable sorting by a total preorder has a unique
result, so this models `sorted(chunks, key=_key)` exactly. -/
def stableSort (le : α → α → Bool) (l : List α) : List α :=
  l.foldl (fun acc x => insertSorted le x acc) []

/-- Candidate order of `sorted(chunks, key=_key)`, as chunk positions. -/
def sortedIdxs (cs : List Chunk) : List Nat :=
  stableSort (fun i j => keyLe (cs.getD i default) (cs.getD j default))
    (List.range cs.length)

/-- The diminishing-returns test `t0 < ch['_original_tokens'] * 0.7`.  The
body is the integer form of the comparison; `belowDiminishing_eq_rat` below
proves it equal to the direct rational transcription of the float
expression. -/
def belowDiminishing (t0 : Nat) : Option Nat → Bool
  | some o => decide (10 * t0 < 7 * o)
  | none => false

theorem belowDiminishing_eq_rat (t0 o : Nat) :
    belowDiminishing t0 (some o) = decide ((t0 : ℚ) < (o : ℚ) * (7/10)) := by
  rw [belowDiminishing]
  congr 1
  rw [eq_iff_iff]
  rw [show (o:ℚ) * (7/10) = ((7 * o : Nat) : ℚ) / 10 by push_cast; ring]
  rw [lt_div_iff (by norm_num : (0:ℚ) < 10)]
  rw [show (t0:ℚ) * 10 = ((10 * t0 : Nat) : ℚ) by push_cast; ring]
  exact (Nat.cast_lt (α := ℚ)).symm

/-- The shrink target
`max(1, t0 - max(1, min(int(t0*0.4), need // max(1, batch))))`.  The
`int(t0*0.4)` part is written as the integer `4 * t0 / 10`;
`shrinkTarget_int_part_eq_rat` proves it equal to the rational
transcription of the float expression. -/
def shrinkTarget (need batch t0 : Nat) : Nat :=
  max 1 (t0 - max 1 (min (4 * t0 / 10) (need / max 1 batch)))

theorem shrinkTarget_int_part_eq_rat (t0 : Nat) :
    4 * t0 / 10 = (pyInt ((t0 : ℚ) * (4/10))).toNat := by
  have hnn : (0:ℚ) ≤ (t0 : ℚ) * (4/10) := by positivity
  rw [pyInt_nonneg _ hnn]
  rw [show (t0:ℚ) * (4/10) = (((4 * t0 : Nat) : ℤ) : ℚ) / ((10 : Nat) : ℚ)
    by push_cast; ring]
  rw [Rat.floor_intCast_div_natCast]
  rw [show ((4 * t0 : Nat) : ℤ) / ((10 : Nat) : ℤ) = ((4 * t0 / 10 : Nat) : ℤ)
    from (Int.ofNat_div (4 * t0) 10).symm]
  exact (Int.toNat_ofNat _).symm

/-- The candidate-selection loop of one iteration: walk the sorted
candidates, skip chunks at the token floor, full batches, attempt-capped
chunks and chunks already shrunk below 70 percent of their recorded
original size; record the original size on first selection and compute the
per-chunk shrink target
`max(1, t0 - max(1, min(int(t0*0.4), need // max(1, batch))))`. -/
def selectGo (need batch : Nat) :
    List Nat → List (Nat × Nat) → List Chunk → List (Nat × Nat) × List Chunk
  | [], sel, cs => (sel, cs)
  | i :: rest, sel, cs =>
      let ch := cs.getD i default
      let t0 := wordCount ch.text
      if t0 ≤ 1 || batch ≤ sel.length || 3 ≤ ch.attempts then
        selectGo need batch rest sel cs
      else if belowDiminishing t0 ch.origTokens then
        selectGo need batch rest sel cs
      else
        let cs1 := if ch.origTokens = none
          then cs.set i { ch with origTokens := some t0 } else cs
        selectGo need batch rest (sel ++ [(i, shrinkTarget need batch t0)]) cs1

/-- Candidate selection for one iteration (`need = cur - target`). -/
def selectBatch (cs : List Chunk) (need batch : Nat) :
    List (Nat × Nat) × List Chunk :=
  selectGo need batch (sortedIdxs cs) [] cs

/-- Dispatch data captured by `_compress_chunk_async` at request time:
chunk position, shrink target, the chunk's text `t` and its count `t0`. -/
def mkTasks (sel : List (Nat × Nat)) (cs : List Chunk) :
    List (Nat × Nat × List Char × Nat) :=
  sel.map fun p =>
    (p.1, p.2, (cs.getD p.1 default).text, wordCount (cs.getD p.1 default).text)

/-- The apply loop over a batch's responses, in task order: an exception is
skipped entirely; a returned response increments the chunk's attempt
counter and replaces its text/token count only when the measured count is
strictly below the count at request time. -/
def applyGo (orc : Nat → RewriteResp) :
    Nat → List (Nat × Nat × List Char × Nat) → List Chunk → Bool →
    List Chunk × Bool
  | _, [], cs, improved => (cs, improved)
  | j, t :: rest, cs, improved =>
      match orc j with
      | RewriteResp.exn => applyGo orc (j+1) rest cs improved
      | RewriteResp.ok raw =>
          let out := rewriteOut raw t.2.2.1
          let ch := cs.getD t.1 default
          let newTokens := wordCount out
          if newTokens < t.2.2.2 then
            applyGo orc (j+1) rest
              (cs.set t.1
                { ch with attempts := ch.attempts + 1,
                          text := out, tokens := newTokens }) true
          else
            applyGo orc (j+1) rest
              (cs.set t.1 { ch with attempts := ch.attempts + 1 }) improved

/-- One iteration of the compression loop: select, dispatch, apply.
Returns the new chunk state, the `improved` flag, and whether the
iteration broke off early because no candidate was selected. -/
def schedIter (orc : Nat → RewriteResp) (target batch : Nat)
    (cs : List Chunk) (cur : Nat) : List Chunk × Bool × Bool :=
  let sl := selectBatch cs (cur - target) batch
  if sl.1.isEmpty then (sl.2, false, true)
  else
    let ab := applyGo orc 0 (mkTasks sl.1 sl.2) sl.2 false
    (ab.1, ab.2, false)

/-- The `while cur > target and it < 32` loop.  `fuel` is `32 - it`; the
result carries the final chunk state, the number of executed iterations,
and the trace of totals recomputed at the end of each completed
iteration. -/
def schedLoop (orc : Nat → Nat → RewriteResp) (target batch : Nat) :
    Nat → Nat → Nat → List Chunk → List Chunk × Nat × List Nat
  | 0, it, _, cs => (cs, it, [])
  | fuel+1, it, cur, cs =>
      if cur ≤ target then (cs, it, [])
      else
        let r := schedIter (orc (it+1)) target batch cs cur
        if r.2.2 then (r.1, it+1, [])
        else
          let cur1 := totalTokens r.1
          if r.2.1 then
            let rest := schedLoop orc target batch fuel (it+1) cur1 r.1
            (rest.1, rest.2.1, cur1 :: rest.2.2)
          else (r.1, it+1, [cur1])

/-- `compress_to_target(chunks, target_tokens, batch_size)` with the
oracle's responses indexed by iteration number and task position. -/
def compress_to_target (orc : Nat → Nat → RewriteResp) (cs : List Chunk)
    (target batch : Nat) : List Chunk × Nat × List Nat :=
  schedLoop orc target batch 32 0 (totalTokens cs) cs

/-- A response that never strictly shrinks any text: an exception, or a
returned output whose measured count never drops below the input's. -/
def RespNeverReduces : RewriteResp → Prop
  | RewriteResp.exn => True
  | RewriteResp.ok raw => ∀ t : List Char, wordCount t ≤ wordCount (rewriteOut raw t)

/-! ### Scheduler lemmas -/

theorem getD_set_self (l : List Chunk) (i : Nat) (a : Chunk)
    (h : i < l.length) : (l.set i a).getD i default = a := by
  rw [List.getD_eq_getElem?_getD, List.getElem?_set_self h]
  rfl

theorem getD_set_ne (l : List Chunk) (i j : Nat) (a : Chunk)
    (h : i ≠ j) : (l.set i a).getD j default = l.getD j default := by
  rw [List.getD_eq_getElem?_getD, List.getElem?_set_ne h,
    ← List.getD_eq_getElem?_getD]

theorem insertSorted_perm (le : α → α → Bool) (x : α) (l : List α) :
    (insertSorted le x l).Perm (x :: l) := by
  induction l with
  | nil => exact List.Perm.refl _
  | cons y ys ih =>
      rw [insertSorted]
      split
      · exact ((ih.cons y).trans (List.Perm.swap x y ys))
      · exact List.Perm.refl _


theorem stableSort_perm (le : α → α → Bool) (l : List α) :
    (stableSort le l).Perm l := by
  have key : ∀ (l acc : List α),
      (l.foldl (fun a x => insertSorted le x a) acc).Perm (acc ++ l) := by
    intro l
    induction l with
    | nil => intro acc; simp
    | cons x rest ih =>
        intro acc
        have h1 := ih (insertSorted le x acc)
        have h2 : (insertSorted le x acc ++ rest).Perm (x :: (acc ++ rest)) :=
          List.Perm.append_right rest (insertSorted_perm le x acc)
        have h3 : (acc ++ x :: rest).Perm (x :: (acc ++ rest)) :=
          List.perm_middle
        exact (h1.trans h2).trans h3.symm
  simpa [stableSort] using key l []

theorem sortedIdxs_perm (cs : List Chunk) :
    (sortedIdxs cs).Perm (List.range cs.length) :=
  stableSort_perm _ _

theorem sortedIdxs_nodup (cs : List Chunk) : (sortedIdxs cs).Nodup :=
  ((sortedIdxs_perm cs).symm.nodup (List.nodup_range cs.length))

theorem sortedIdxs_mem_lt (cs : List Chunk) (i : Nat)
    (h : i ∈ sortedIdxs cs) : i < cs.length :=
  List.mem_range.mp ((sortedIdxs_perm cs).subset h)

theorem getD_set (l : List Chunk) (i k : Nat) (a : Chunk) :
    (l.set i a).getD k default =
      if i = k ∧ i < l.length then a else l.getD k default := by
  by_cases h1 : i = k
  · subst h1
    by_cases h2 : i < l.length
    · simp [List.getD_eq_getElem?_getD, List.getElem?_set, h2]
    · have hn : l[i]? = none := List.getElem?_eq_none (le_of_not_lt h2)
      simp [List.getD_eq_getElem?_getD, List.getElem?_set, h2, hn]
  · simp [List.getD_eq_getElem?_getD, List.getElem?_set, h1]

theorem selectGo_snd_length (need batch : Nat) (idxs : List Nat)
    (sel : List (Nat × Nat)) (cs : List Chunk) :
    ((selectGo need batch idxs sel cs).2).length = cs.length := by
  induction idxs generalizing sel cs with
  | nil => rfl
  | cons i rest ih =>
      rw [selectGo]
      split
      · exact ih sel cs
      · split
        · exact ih sel cs
        · split
          · rw [ih]
            exact List.length_set cs i _
          · exact ih _ cs

theorem getD_set_preserves (cs : List Chunk) (i k : Nat) (a : Chunk)
    (ha : a.text = (cs.getD i default).text)
    (hb : a.attempts = (cs.getD i default).attempts)
    (hc : a.tokens = (cs.getD i default).tokens) :
    ((cs.set i a).getD k default).text = (cs.getD k default).text ∧
    ((cs.set i a).getD k default).attempts = (cs.getD k default).attempts ∧
    ((cs.set i a).getD k default).tokens = (cs.getD k default).tokens := by
  rw [getD_set]
  split
  · rename_i h
    rw [← h.1]
    exact ⟨ha, hb, hc⟩
  · exact ⟨rfl, rfl, rfl⟩

theorem selectGo_snd_fields (need batch : Nat) (idxs : List Nat)
    (sel : List (Nat × Nat)) (cs : List Chunk) (k : Nat) :
    (((selectGo need batch idxs sel cs).2).getD k default).text
        = (cs.getD k default).text ∧
    (((selectGo need batch idxs sel cs).2).getD k default).attempts
        = (cs.getD k default).attempts ∧
    (((selectGo need batch idxs sel cs).2).getD k default).tokens
        = (cs.getD k default).tokens := by
  induction idxs generalizing sel cs with
  | nil => exact ⟨rfl, rfl, rfl⟩
  | cons i rest ih =>
      rw [selectGo]
      split
      · exact ih sel cs
      · split
        · exact ih sel cs
        · split
          · refine ⟨(ih _ _).1.trans ?_, (ih _ _).2.1.trans ?_,
              (ih _ _).2.2.trans ?_⟩
            · exact (getD_set_preserves cs i k
                { cs.getD i default with
                  origTokens := some (wordCount (cs.getD i default).text) }
                rfl rfl rfl).1
            · exact (getD_set_preserves cs i k
                { cs.getD i default with
                  origTokens := some (wordCount (cs.getD i default).text) }
                rfl rfl rfl).2.1
            · exact (getD_set_preserves cs i k
                { cs.getD i default with
                  origTokens := some (wordCount (cs.getD i default).text) }
                rfl rfl rfl).2.2
          · exact ih _ cs

theorem selectGo_sel_mem (need batch : Nat) (idxs : List Nat)
    (sel : List (Nat × Nat)) (cs : List Chunk) (p : Nat × Nat)
    (hp : p ∈ (selectGo need batch idxs sel cs).1) :
    p ∈ sel ∨ p.1 ∈ idxs := by
  induction idxs generalizing sel cs with
  | nil => exact Or.inl hp
  | cons i rest ih =>
      rw [selectGo] at hp
      split at hp
      · rcases ih _ _ hp with h | h
        · exact Or.inl h
        · exact Or.inr (List.mem_cons_of_mem i h)
      · split at hp
        · rcases ih _ _ hp with h | h
          · exact Or.inl h
          · exact Or.inr (List.mem_cons_of_mem i h)
        · rcases ih _ _ hp with h | h
          · rcases List.mem_append.mp h with h' | h'
            · exact Or.inl h'
            · have : p.1 = i := by
                simpa using congrArg Prod.fst (List.mem_singleton.mp h')
              exact Or.inr (this ▸ List.mem_cons_self i rest)
          · exact Or.inr (List.mem_cons_of_mem i h)

theorem selectGo_sel_nodup (need batch : Nat) (idxs : List Nat)
    (sel : List (Nat × Nat)) (cs : List Chunk)
    (h : (sel.map Prod.fst ++ idxs).Nodup) :
    ((selectGo need batch idxs sel cs).1.map Prod.fst).Nodup := by
  induction idxs generalizing sel cs with
  | nil => simpa using h.sublist (List.sublist_append_left _ [])
  | cons i rest ih =>
      have hskip : (sel.map Prod.fst ++ rest).Nodup :=
        h.sublist (List.Sublist.append_left (List.sublist_cons_self i rest) _)
      rw [selectGo]
      split
      · exact ih _ _ hskip
      · split
        · exact ih _ _ hskip
        · refine ih _ _ ?_
          simpa [List.append_assoc] using h

theorem applyGo_length (orc : Nat → RewriteResp) (j : Nat)
    (tasks : List (Nat × Nat × List Char × Nat)) (cs : List Chunk) (b : Bool) :
    ((applyGo orc j tasks cs b).1).length = cs.length := by
  induction tasks generalizing j cs b with
  | nil => rfl
  | cons t rest ih =>
      rw [applyGo]
      cases horc : orc j with
      | exn => exact ih _ _ _
      | ok raw =>
          simp only []
          split
          · simp only [ih, List.length_set]
          · simp only [ih, List.length_set]

theorem applyGo_getD_not_mem (orc : Nat → RewriteResp) (j : Nat)
    (tasks : List (Nat × Nat × List Char × Nat)) (cs : List Chunk) (b : Bool)
    (k : Nat) (hk : k ∉ tasks.map (fun t => t.1)) :
    (applyGo orc j tasks cs b).1.getD k default = cs.getD k default := by
  induction tasks generalizing j cs b with
  | nil => rfl
  | cons t rest ih =>
      simp only [List.map_cons, List.mem_cons, not_or] at hk
      obtain ⟨hk1, hk2⟩ := hk
      rw [applyGo]
      cases horc : orc j with
      | exn => exact ih _ _ _ hk2
      | ok raw =>
          have hne : ¬ (t.1 = k ∧ t.1 < cs.length) := fun hc => hk1 hc.1.symm
          simp only []
          split
          · rw [ih _ _ _ hk2, getD_set, if_neg hne]
          · rw [ih _ _ _ hk2, getD_set, if_neg hne]

theorem applyGo_task (orc : Nat → RewriteResp)
    (tasks : List (Nat × Nat × List Char × Nat))
    (j0 : Nat) (cs : List Chunk) (b : Bool)
    (hnodup : (tasks.map (fun t => t.1)).Nodup)
    (j : Nat) (hj : j < tasks.length)
    (i nt : Nat) (txt : List Char) (t0 : Nat)
    (ht : tasks.getD j default = (i, nt, txt, t0))
    (hi : i < cs.length) :
    (orc (j0 + j) = RewriteResp.exn →
      (applyGo orc j0 tasks cs b).1.getD i default = cs.getD i default) ∧
    (∀ raw, orc (j0 + j) = RewriteResp.ok raw →
      (wordCount (rewriteOut raw txt) < t0 →
        (applyGo orc j0 tasks cs b).1.getD i default =
          { cs.getD i default with
              attempts := (cs.getD i default).attempts + 1,
              text := rewriteOut raw txt,
              tokens := wordCount (rewriteOut raw txt) }) ∧
      (t0 ≤ wordCount (rewriteOut raw txt) →
        (applyGo orc j0 tasks cs b).1.getD i default =
          { cs.getD i default with
              attempts := (cs.getD i default).attempts + 1 })) := by
  induction tasks generalizing j0 j cs b with
  | nil => exact absurd hj (by simp)
  | cons t rest ih =>
      simp only [List.map_cons, List.nodup_cons] at hnodup
      obtain ⟨hhead, hrest⟩ := hnodup
      cases j with
      | zero =>
          have ht0 : t = (i, nt, txt, t0) := ht
          subst ht0
          simp only [Nat.add_zero]
          rw [applyGo]
          constructor
          · intro hexn
            rw [hexn]
            exact applyGo_getD_not_mem orc (j0+1) rest cs b i hhead
          · intro raw hok
            rw [hok]
            simp only []
            constructor
            · intro hlt
              rw [if_pos hlt,
                applyGo_getD_not_mem orc (j0+1) rest _ true i hhead,
                getD_set, if_pos ⟨rfl, hi⟩]
            · intro hge
              rw [if_neg (not_lt.mpr hge),
                applyGo_getD_not_mem orc (j0+1) rest _ b i hhead,
                getD_set, if_pos ⟨rfl, hi⟩]
      | succ j' =>
          have hj' : j' < rest.length := by simpa using hj
          have ht' : rest.getD j' default = (i, nt, txt, t0) := ht
          have himem : i ∈ rest.map (fun t => t.1) := by
            have hmem : (i, nt, txt, t0) ∈ rest := by
              rw [← ht']
              rw [List.getD_eq_getElem?_getD, List.getElem?_eq_getElem hj']
              exact List.getElem_mem hj'
            exact List.mem_map.mpr ⟨(i, nt, txt, t0), hmem, rfl⟩
          have hne : t.1 ≠ i := fun h => hhead (h ▸ himem)
          have harith : j0 + (j' + 1) = (j0 + 1) + j' := by omega
          rw [applyGo, harith]
          cases horc : orc j0 with
          | exn => exact ih (j0+1) cs b hrest j' hj' ht' hi
          | ok raw =>
              simp only []
              split
              · have hlen : i < (cs.set t.1
                    { cs.getD t.1 default with
                        attempts := (cs.getD t.1 default).attempts + 1,
                        text := rewriteOut raw t.2.2.1,
                        tokens := wordCount (rewriteOut raw t.2.2.1) }).length := by
                  rw [List.length_set]; exact hi
                have key := ih (j0+1) _ true hrest j' hj' ht' hlen
                rwa [getD_set, if_neg (fun hc => hne hc.1)] at key
              · have hlen : i < (cs.set t.1
                    { cs.getD t.1 default with
                        attempts := (cs.getD t.1 default).attempts + 1 }).length := by
                  rw [List.length_set]; exact hi
                have key := ih (j0+1) _ b hrest j' hj' ht' hlen
                rwa [getD_set, if_neg (fun hc => hne hc.1)] at key

/-- Whether field `improved` becomes set while applying a batch's responses
starting at task position `j`. -/
def anyAcceptedFrom (orc : Nat → RewriteResp) :
    Nat → List (Nat × Nat × List Char × Nat) → Bool
  | _, [] => false
  | j, t :: rest =>
      (match orc j with
       | RewriteResp.exn => false
       | RewriteResp.ok raw =>
           decide (wordCount (rewriteOut raw t.2.2.1) < t.2.2.2)) ||
      anyAcceptedFrom orc (j+1) rest

theorem applyGo_improved (orc : Nat → RewriteResp) (j : Nat)
    (tasks : List (Nat × Nat × List Char × Nat)) (cs : List Chunk) (b : Bool) :
    (applyGo orc j tasks cs b).2 = (b || anyAcceptedFrom orc j tasks) := by
  induction tasks generalizing j cs b with
  | nil => simp [applyGo, anyAcceptedFrom]
  | cons t rest ih =>
      rw [applyGo, anyAcceptedFrom]
      cases horc : orc j with
      | exn => rw [ih]; simp
      | ok raw =>
          simp only []
          split
          · rename_i hlt
            rw [ih]
            simp [hlt]
          · rename_i hge
            rw [ih]
            simp [hge]

theorem applyGo_wc_le (orc : Nat → RewriteResp) (j : Nat)
    (tasks : List (Nat × Nat × List Char × Nat)) (cs : List Chunk) (b : Bool)
    (hnodup : (tasks.map (fun t => t.1)).Nodup)
    (hcap : ∀ t ∈ tasks, t.2.2.1 = (cs.getD t.1 default).text ∧
      t.2.2.2 = wordCount ((cs.getD t.1 default).text)) (k : Nat) :
    wordCount (((applyGo orc j tasks cs b).1.getD k default).text) ≤
      wordCount ((cs.getD k default).text) := by
  induction tasks generalizing j cs b with
  | nil => exact le_refl _
  | cons t rest ih =>
      simp only [List.map_cons, List.nodup_cons] at hnodup
      obtain ⟨hhead, hrest⟩ := hnodup
      obtain ⟨hcap1, hcap2⟩ := hcap t (List.mem_cons_self t rest)
      have hcapr : ∀ t' ∈ rest, t'.2.2.1 = (cs.getD t'.1 default).text ∧
          t'.2.2.2 = wordCount ((cs.getD t'.1 default).text) :=
        fun t' ht' => hcap t' (List.mem_cons_of_mem t ht')
      rw [applyGo]
      cases horc : orc j with
      | exn => exact ih (j+1) cs b hrest hcapr
      | ok raw =>
          simp only []
          split
          · rename_i hlt
            have hcapr' : ∀ t' ∈ rest,
                t'.2.2.1 = ((cs.set t.1
                  { cs.getD t.1 default with
                      attempts := (cs.getD t.1 default).attempts + 1,
                      text := rewriteOut raw t.2.2.1,
                      tokens := wordCount (rewriteOut raw t.2.2.1) }).getD
                    t'.1 default).text ∧
                t'.2.2.2 = wordCount (((cs.set t.1
                  { cs.getD t.1 default with
                      attempts := (cs.getD t.1 default).attempts + 1,
                      text := rewriteOut raw t.2.2.1,
                      tokens := wordCount (rewriteOut raw t.2.2.1) }).getD
                    t'.1 default).text) := by
              intro t' ht'
              have hne : ¬ (t.1 = t'.1 ∧ t.1 < cs.length) := by
                intro hc
                exact hhead (hc.1 ▸ List.mem_map.mpr ⟨t', ht', rfl⟩)
              rw [getD_set, if_neg hne]
              exact hcapr t' ht'
            refine le_trans (ih (j+1) _ true hrest hcapr') ?_
            rw [getD_set]
            split
            · rename_i hc
              calc wordCount (rewriteOut raw t.2.2.1)
                  ≤ t.2.2.2 := le_of_lt hlt
                _ = wordCount ((cs.getD k default).text) := by
                      rw [hcap2, hc.1]
            · exact le_refl _
          · rename_i hge
            have hcapr' : ∀ t' ∈ rest,
                t'.2.2.1 = ((cs.set t.1
                  { cs.getD t.1 default with
                      attempts := (cs.getD t.1 default).attempts + 1 }).getD
                    t'.1 default).text ∧
                t'.2.2.2 = wordCount (((cs.set t.1
                  { cs.getD t.1 default with
                      attempts := (cs.getD t.1 default).attempts + 1 }).getD
                    t'.1 default).text) := by
              intro t' ht'
              have hne : ¬ (t.1 = t'.1 ∧ t.1 < cs.length) := by
                intro hc
                exact hhead (hc.1 ▸ List.mem_map.mpr ⟨t', ht', rfl⟩)
              rw [getD_set, if_neg hne]
              exact hcapr t' ht'
            refine le_trans (ih (j+1) _ b hrest hcapr') ?_
            rw [getD_set]
            split
            · rename_i hc
              exact le_of_eq (by rw [hc.1])
            · exact le_refl _

theorem totalTokens_le_of_pointwise (cs' cs : List Chunk)
    (hlen : cs'.length = cs.length)
    (h : ∀ k, wordCount ((cs'.getD k default).text) ≤
      wordCount ((cs.getD k default).text)) :
    totalTokens cs' ≤ totalTokens cs := by
  induction cs' generalizing cs with
  | nil =>
      cases cs with
      | nil => exact le_refl _
      | cons a l => simp at hlen
  | cons a l ih =>
      cases cs with
      | nil => simp at hlen
      | cons a' l' =>
          have h0 := h 0
          have hk : ∀ k, wordCount ((l.getD k default).text) ≤
              wordCount ((l'.getD k default).text) := fun k => h (k + 1)
          have := ih l' (by simpa using hlen) hk
          simp only [totalTokens, List.map_cons, List.sum_cons]
          exact Nat.add_le_add h0 this

theorem totalTokens_eq_of_pointwise (cs' cs : List Chunk)
    (hlen : cs'.length = cs.length)
    (h : ∀ k, ((cs'.getD k default).text) = ((cs.getD k default).text)) :
    totalTokens cs' = totalTokens cs :=
  le_antisymm
    (totalTokens_le_of_pointwise cs' cs hlen (fun k => le_of_eq (by rw [h k])))
    (totalTokens_le_of_pointwise cs cs' hlen.symm
      (fun k => le_of_eq (by rw [h k])))

theorem selectBatch_snd_length (cs : List Chunk) (need batch : Nat) :
    ((selectBatch cs need batch).2).length = cs.length :=
  selectGo_snd_length need batch (sortedIdxs cs) [] cs

theorem selectBatch_total (cs : List Chunk) (need batch : Nat) :
    totalTokens (selectBatch cs need batch).2 = totalTokens cs :=
  totalTokens_eq_of_pointwise _ cs (selectBatch_snd_length cs need batch)
    (fun k => (selectGo_snd_fields need batch (sortedIdxs cs) [] cs k).1)

theorem selectBatch_sel_nodup (cs : List Chunk) (need batch : Nat) :
    (((selectBatch cs need batch).1).map Prod.fst).Nodup :=
  selectGo_sel_nodup need batch (sortedIdxs cs) [] cs
    (by simpa using sortedIdxs_nodup cs)

theorem selectBatch_sel_lt (cs : List Chunk) (need batch : Nat)
    (p : Nat × Nat) (hp : p ∈ (selectBatch cs need batch).1) :
    p.1 < cs.length := by
  rcases selectGo_sel_mem need batch (sortedIdxs cs) [] cs p hp with h | h
  · simp at h
  · exact sortedIdxs_mem_lt cs p.1 h

theorem mkTasks_map_fst (sel : List (Nat × Nat)) (cs : List Chunk) :
    (mkTasks sel cs).map (fun t => t.1) = sel.map Prod.fst := by
  simp [mkTasks]

theorem mkTasks_capture (sel : List (Nat × Nat)) (cs : List Chunk) :
    ∀ t ∈ mkTasks sel cs, t.2.2.1 = (cs.getD t.1 default).text ∧
      t.2.2.2 = wordCount ((cs.getD t.1 default).text) := by
  intro t ht
  obtain ⟨p, _, rfl⟩ := List.mem_map.mp ht
  exact ⟨rfl, rfl⟩

theorem schedIter_total_le (orc : Nat → RewriteResp) (target batch : Nat)
    (cs : List Chunk) (cur : Nat) :
    totalTokens (schedIter orc target batch cs cur).1 ≤ totalTokens cs := by
  rw [schedIter]
  simp only []
  split
  · exact le_of_eq (selectBatch_total cs (cur - target) batch)
  · refine le_trans (totalTokens_le_of_pointwise _ _ ?_ ?_)
      (le_of_eq (selectBatch_total cs (cur - target) batch))
    · exact applyGo_length orc 0 _ _ false
    · intro k
      refine applyGo_wc_le orc 0 _ _ false ?_ ?_ k
      · rw [mkTasks_map_fst]
        exact selectBatch_sel_nodup cs (cur - target) batch
      · exact mkTasks_capture _ _

theorem anyAcceptedFrom_stall (orc : Nat → RewriteResp)
    (H : ∀ jj : Nat, RespNeverReduces (orc jj))
    (sel : List (Nat × Nat)) (cs : List Chunk) :
    ∀ j0 : Nat, anyAcceptedFrom orc j0 (mkTasks sel cs) = false := by
  induction sel with
  | nil => intro j0; rfl
  | cons p rest ih =>
      intro j0
      rw [mkTasks, List.map_cons, anyAcceptedFrom]
      have hrest : anyAcceptedFrom orc (j0+1)
          (rest.map fun p => (p.1, p.2, (cs.getD p.1 default).text,
            wordCount (cs.getD p.1 default).text)) = false := ih j0.succ
      rw [hrest, Bool.or_false]
      cases horc : orc j0 with
      | exn => rfl
      | ok raw =>
          simp only []
          have hnr := H j0
          rw [horc] at hnr
          exact decide_eq_false (not_lt.mpr (hnr _))

theorem schedLoop_it_le (orc : Nat → Nat → RewriteResp) (target batch : Nat)
    (fuel it cur : Nat) (cs : List Chunk) :
    (schedLoop orc target batch fuel it cur cs).2.1 ≤ it + fuel := by
  induction fuel generalizing it cur cs with
  | zero => exact Nat.le_add_right it 0
  | succ f ih =>
      rw [schedLoop]
      split
      · exact Nat.le_add_right it (f+1)
      · simp only []
        split
        · exact (by omega : it + 1 ≤ it + (f + 1))
        · split
          · refine le_trans (ih (it+1) _ _) ?_
            omega
          · exact (by omega : it + 1 ≤ it + (f + 1))

theorem schedLoop_chain (orc : Nat → Nat → RewriteResp) (target batch : Nat)
    (fuel it : Nat) (cs : List Chunk) :
    List.Chain' (fun a b => b ≤ a)
      (totalTokens cs ::
        (schedLoop orc target batch fuel it (totalTokens cs) cs).2.2) := by
  induction fuel generalizing it cs with
  | zero => exact List.chain'_singleton _
  | succ f ih =>
      rw [schedLoop]
      split
      · exact List.chain'_singleton _
      · simp only []
        split
        · exact List.chain'_singleton _
        · split
          · refine List.chain'_cons.mpr ⟨?_, ?_⟩
            · exact schedIter_total_le _ target batch cs _
            · exact ih (it+1) _
          · refine List.chain'_cons.mpr ⟨?_, List.chain'_singleton _⟩
            exact schedIter_total_le _ target batch cs _

theorem compress_stall_one_iteration (orc : Nat → Nat → RewriteResp)
    (cs : List Chunk) (target batch : Nat)
    (H : ∀ i j : Nat, RespNeverReduces (orc i j))
    (h : target < totalTokens cs) :
    (compress_to_target orc cs target batch).2.1 = 1 := by
  rw [compress_to_target, schedLoop, if_neg (not_le.mpr h)]
  simp only []
  split
  · rfl
  · rename_i hne
    have himp : (schedIter (orc 1) target batch cs (totalTokens cs)).2.1
        = false := by
      rw [schedIter]
      simp only []
      split
      · rfl
      · rw [applyGo_improved, anyAcceptedFrom_stall (orc 1) (H 1)]
        rfl
    rw [himp]
    rfl

/-- C2: in `compress_to_target` the total token count is non-increasing
from one iteration to the next (the trace of end-of-iteration totals,
prefixed with the initial total, is a descending chain); the loop always
halts within the iteration cap of 32; and when the oracle never strictly
reduces any chunk, the loop stops after exactly one unproductive
iteration. -/
theorem C2_monotone_cap_stall (orc : Nat → Nat → RewriteResp)
    (cs : List Chunk) (target batch : Nat) :
    (compress_to_target orc cs target batch).2.1 ≤ 32 ∧
    List.Chain' (fun a b => b ≤ a)
      (totalTokens cs :: (compress_to_target orc cs target batch).2.2) ∧
    ((∀ i j : Nat, RespNeverReduces (orc i j)) → target < totalTokens cs →
      (compress_to_target orc cs target batch).2.1 = 1) := by
  refine ⟨?_, ?_, ?_⟩
  · simpa using schedLoop_it_le orc target batch 32 0 (totalTokens cs) cs
  · exact schedLoop_chain orc target batch 32 0 cs
  · intro H h
    exact compress_stall_one_iteration orc cs target batch H h

/-- A concrete chunk driving the scheduler witnesses. -/
def stallChunk : Chunk :=
  { idx := 0, start := 0, stop := 3, text := "a b".toList,
    tokens := 2, kind := BlockKind.paragraph }

/-- Witness for C2: a single two-token chunk, target 0, an always-failing
oracle; the loop stops after exactly one iteration. -/
theorem C2_monotone_cap_stall_witness :
    0 < totalTokens [stallChunk] ∧
    (compress_to_target (fun _ _ => RewriteResp.exn) [stallChunk] 0 5).2.1
      = 1 :=
  ⟨by decide,
   (C2_monotone_cap_stall (fun _ _ => RewriteResp.exn) [stallChunk] 0 5).2.2
     (fun _ _ => trivial) (by decide)⟩

/-- The dispatch data of one iteration of `compress_to_target`
(`need = cur - target`). -/
def iterTasks (cs : List Chunk) (need batch : Nat) :
    List (Nat × Nat × List Char × Nat) :=
  mkTasks (selectBatch cs need batch).1 (selectBatch cs need batch).2

/-- The chunk state after one iteration's responses are applied. -/
def iterResult (orc : Nat → RewriteResp) (cs : List Chunk)
    (need batch : Nat) : List Chunk :=
  (applyGo orc 0 (iterTasks cs need batch)
    (selectBatch cs need batch).2 false).1

theorem schedIter_fst_eq (orc : Nat → RewriteResp) (target batch : Nat)
    (cs : List Chunk) (cur : Nat) :
    (schedIter orc target batch cs cur).1 =
      if (selectBatch cs (cur - target) batch).1.isEmpty
      then (selectBatch cs (cur - target) batch).2
      else iterResult orc cs (cur - target) batch := by
  rw [schedIter, iterResult, iterTasks]
  simp only []
  split <;> rfl

theorem iterTasks_getD_mem (cs : List Chunk) (need batch : Nat)
    (j : Nat) (hj : j < (iterTasks cs need batch).length) :
    (iterTasks cs need batch).getD j default ∈ iterTasks cs need batch := by
  rw [List.getD_eq_getElem?_getD, List.getElem?_eq_getElem hj]
  exact List.getElem_mem hj

theorem iterTasks_fst_lt (cs : List Chunk) (need batch : Nat)
    (t : Nat × Nat × List Char × Nat) (ht : t ∈ iterTasks cs need batch) :
    t.1 < ((selectBatch cs need batch).2).length := by
  rw [selectBatch_snd_length]
  obtain ⟨p, hp, rfl⟩ := List.mem_map.mp ht
  exact selectBatch_sel_lt cs need batch p hp

/-- C5: for every rewrite response in an iteration of `compress_to_target`,
the new text is accepted exactly when its measured token count is strictly
below the chunk's count at request time (which is the chunk's token count
before the call); an equal-or-larger result or a failed request leaves the
chunk's prior text and token count unchanged (a failure changes nothing at
all, a rejected response only bumps the attempt counter). -/
theorem C5_accept_iff_strictly_smaller (orc : Nat → RewriteResp)
    (cs : List Chunk) (target batch cur : Nat)
    (j i nt : Nat) (txt : List Char) (t0 : Nat)
    (hj : j < (iterTasks cs (cur - target) batch).length)
    (ht : (iterTasks cs (cur - target) batch).getD j default
      = (i, nt, txt, t0)) :
    ((selectBatch cs (cur - target) batch).1.isEmpty = false →
      (schedIter orc target batch cs cur).1 =
        iterResult orc cs (cur - target) batch) ∧
    txt = (((selectBatch cs (cur - target) batch).2).getD i default).text ∧
    t0 = wordCount txt ∧
    (orc j = RewriteResp.exn →
      (iterResult orc cs (cur - target) batch).getD i default =
        ((selectBatch cs (cur - target) batch).2).getD i default) ∧
    (∀ raw, orc j = RewriteResp.ok raw →
      (wordCount (rewriteOut raw txt) < t0 →
        (iterResult orc cs (cur - target) batch).getD i default =
          { ((selectBatch cs (cur - target) batch).2).getD i default with
              attempts := (((selectBatch cs (cur - target) batch).2).getD
                i default).attempts + 1,
              text := rewriteOut raw txt,
              tokens := wordCount (rewriteOut raw txt) }) ∧
      (t0 ≤ wordCount (rewriteOut raw txt) →
        (iterResult orc cs (cur - target) batch).getD i default =
          { ((selectBatch cs (cur - target) batch).2).getD i default with
              attempts := (((selectBatch cs (cur - target) batch).2).getD
                i default).attempts + 1 })) := by
  have hmem : (i, nt, txt, t0) ∈ iterTasks cs (cur - target) batch := by
    rw [← ht]
    exact iterTasks_getD_mem cs (cur - target) batch j hj
  have hcap := mkTasks_capture (selectBatch cs (cur - target) batch).1
    (selectBatch cs (cur - target) batch).2 _ hmem
  have hi : i < ((selectBatch cs (cur - target) batch).2).length :=
    iterTasks_fst_lt cs (cur - target) batch _ hmem
  have hnodup : ((iterTasks cs (cur - target) batch).map
      (fun t => t.1)).Nodup := by
    rw [iterTasks, mkTasks_map_fst]
    exact selectBatch_sel_nodup cs (cur - target) batch
  have hmaster := applyGo_task orc (iterTasks cs (cur - target) batch) 0
    (selectBatch cs (cur - target) batch).2 false hnodup j hj i nt txt t0
    ht hi
  simp only [Nat.zero_add] at hmaster
  have hcapA : txt =
      (((selectBatch cs (cur - target) batch).2).getD i default).text :=
    hcap.1
  have hcapB : t0 = wordCount
      ((((selectBatch cs (cur - target) batch).2).getD i default).text) :=
    hcap.2
  refine ⟨?_, hcapA, ?_, hmaster.1, hmaster.2⟩
  · intro hne
    rw [schedIter_fst_eq, hne]
    rfl
  · rw [hcapB, hcapA]

/-- Witness chunk for the acceptance and attempt-counting claims. -/
def fourTokenChunk : Chunk :=
  { idx := 0, start := 0, stop := 7, text := "a b c d".toList,
    tokens := 4, kind := BlockKind.paragraph }

/-- Witness for C5: a four-token chunk, a response of two tokens; the
response is accepted and the chunk is rewritten with the attempt counter
bumped. -/
theorem C5_accept_iff_strictly_smaller_witness :
    ((iterTasks [fourTokenChunk] (totalTokens [fourTokenChunk] - 0) 5).getD
      0 default = (0, 3, "a b c d".toList, 4)) ∧
    wordCount (rewriteOut (some "a b".toList) "a b c d".toList) < 4 ∧
    (iterResult (fun _ => RewriteResp.ok (some "a b".toList))
        [fourTokenChunk] (totalTokens [fourTokenChunk] - 0) 5).getD 0 default
      = { ((selectBatch [fourTokenChunk]
            (totalTokens [fourTokenChunk] - 0) 5).2).getD 0 default with
          attempts := (((selectBatch [fourTokenChunk]
            (totalTokens [fourTokenChunk] - 0) 5).2).getD 0
              default).attempts + 1,
          text := rewriteOut (some "a b".toList) "a b c d".toList,
          tokens := wordCount (rewriteOut (some "a b".toList)
            "a b c d".toList) } :=
  ⟨by decide, by decide,
   ((C5_accept_iff_strictly_smaller
      (fun _ => RewriteResp.ok (some "a b".toList)) [fourTokenChunk] 0 5
      (totalTokens [fourTokenChunk]) 0 0 3 "a b c d".toList 4
      (by decide) (by decide)).2.2.2.2 (some "a b".toList) rfl).1
     (by decide)⟩

/-- C6 amended: in an iteration of `compress_to_target`, a chunk's attempt
counter is incremented exactly when its request returns a response
(accepted or rejected alike); a request that raises (fails or times out)
is skipped entirely by the apply loop, leaving the attempt counter — and
the whole chunk — unchanged, contrary to the documented unconditional
increment. -/
theorem C6_attempts_on_returned_responses_only (orc : Nat → RewriteResp)
    (cs : List Chunk) (target batch cur : Nat)
    (j i nt : Nat) (txt : List Char) (t0 : Nat)
    (hj : j < (iterTasks cs (cur - target) batch).length)
    (ht : (iterTasks cs (cur - target) batch).getD j default
      = (i, nt, txt, t0)) :
    (orc j = RewriteResp.exn →
      ((iterResult orc cs (cur - target) batch).getD i default).attempts =
        (((selectBatch cs (cur - target) batch).2).getD i default).attempts) ∧
    (∀ raw, orc j = RewriteResp.ok raw →
      ((iterResult orc cs (cur - target) batch).getD i default).attempts =
        (((selectBatch cs (cur - target) batch).2).getD i
          default).attempts + 1) := by
  have hmem : (i, nt, txt, t0) ∈ iterTasks cs (cur - target) batch := by
    rw [← ht]
    exact iterTasks_getD_mem cs (cur - target) batch j hj
  have hi : i < ((selectBatch cs (cur - target) batch).2).length :=
    iterTasks_fst_lt cs (cur - target) batch _ hmem
  have hnodup : ((iterTasks cs (cur - target) batch).map
      (fun t => t.1)).Nodup := by
    rw [iterTasks, mkTasks_map_fst]
    exact selectBatch_sel_nodup cs (cur - target) batch
  have hmaster := applyGo_task orc (iterTasks cs (cur - target) batch) 0
    (selectBatch cs (cur - target) batch).2 false hnodup j hj i nt txt t0
    ht hi
  simp only [Nat.zero_add] at hmaster
  constructor
  · intro hexn
    rw [iterResult, hmaster.1 hexn]
  · intro raw hok
    rcases lt_or_ge (wordCount (rewriteOut raw txt)) t0 with hlt | hge
    · rw [iterResult, (hmaster.2 raw hok).1 hlt]
    · rw [iterResult, (hmaster.2 raw hok).2 hge]

/-- Witness for C6 amended: a returned but rejected response (same text
back) still increments the attempt counter by one. -/
theorem C6_attempts_on_returned_responses_only_witness :
    ((iterTasks [fourTokenChunk] (totalTokens [fourTokenChunk] - 0) 5).getD
      0 default = (0, 3, "a b c d".toList, 4)) ∧
    ((iterResult (fun _ => RewriteResp.ok (some "a b c d".toList))
        [fourTokenChunk] (totalTokens [fourTokenChunk] - 0) 5).getD 0
        default).attempts =
      (((selectBatch [fourTokenChunk]
        (totalTokens [fourTokenChunk] - 0) 5).2).getD 0
          default).attempts + 1 :=
  ⟨by decide,
   (C6_attempts_on_returned_responses_only
      (fun _ => RewriteResp.ok (some "a b c d".toList)) [fourTokenChunk]
      0 5 (totalTokens [fourTokenChunk]) 0 0 3 "a b c d".toList 4
      (by decide) (by decide)).2 (some "a b c d".toList) rfl⟩

/-- Witness chunk for the failed-request counterexample. -/
def threeTokenChunk : Chunk :=
  { idx := 0, start := 0, stop := 5, text := "a b c".toList,
    tokens := 3, kind := BlockKind.paragraph }

/-- C6 counterexample: one three-token chunk, target 0; the chunk is
selected (one candidate in the batch) but its request raises, and after
the full `compress_to_target` run its attempt counter is still 0 — the
claimed unconditional increment does not happen for failed requests. -/
theorem C6_counterexample_failed_request_not_counted :
    ((selectBatch [threeTokenChunk]
      (totalTokens [threeTokenChunk] - 0) 5).1).length = 1 ∧
    ((compress_to_target (fun _ _ => RewriteResp.exn) [threeTokenChunk]
      0 5).1.map (fun c => c.attempts)) = [0] := by
  constructor
  · decide
  · decide

/-! ## Structural segmenter (`compressor.split`)

Phase 1 scans lines (Python `splitlines(keepends=True)`) into atomic
blocks; phase 2 packs blocks into chunks within the configured window
`CH_MIN = 2000`, `CH_MAX = 4000`.  The scanner below carries the character
offset `pos` explicitly and uses the number of remaining lines as
structural fuel (each step consumes at least one line, so the fuel never
runs out on the real call).  Regex predicates are evaluated per line:
`FENCE = ^```.*$`, `HEADING = ^(#{1,6})\s+.+$`,
`LIST = ^\s{0,3}(?:[-*+]\s+|\d{1,9}[.)]\s+)`, with regex `\s` and
`str.strip` whitespace both modelled by `isPySpace`, and `$` matching at
end of line or before its single trailing newline.  Each block's `id` and
`tokens` dict fields are recomputed downstream (packing re-tokenizes every
block text), so `RawBlock` carries offsets, text and kind. -/

/-- The backtick character (code 96). -/
def backtickChar : Char := Char.ofNat 96

/-- `FENCE.match(line)`: the line starts with three backticks (the rest of
the pattern, `.*$`, always matches within one line). -/
def isFenceLine (l : List Char) : Bool :=
  [backtickChar, backtickChar, backtickChar].isPrefixOf l

/-- Drop the single trailing newline, if any (the region regex `$` can
match before). -/
def dropTrailingNewline (l : List Char) : List Char :=
  if l.getLast? = some '\n' then l.dropLast else l

/-- `HEADING.match(line)`: one to six leading `#`, then at least one
whitespace character, then at least one further character before the line
end. -/
def isHeadingLine (l : List Char) : Bool :=
  let core := dropTrailingNewline l
  let h := (core.takeWhile (fun c => c = '#')).length
  let rest := core.dropWhile (fun c => c = '#')
  decide (1 ≤ h) && decide (h ≤ 6) &&
  (match rest with
   | c1 :: _ :: _ => isPySpace c1
   | _ => false)

def isBulletChar (c : Char) : Bool := c = '-' || c = '*' || c = '+'

/-- `LIST.match(line)`: at most three leading whitespace characters, then a
bullet followed by whitespace, or one to nine digits followed by `.` or
`)` and whitespace. -/
def isListLine (l : List Char) : Bool :=
  let r := (l.takeWhile isPySpace).length
  let rest := l.dropWhile isPySpace
  decide (r ≤ 3) &&
  (match rest with
   | [] => false
   | c1 :: rest1 =>
       if isBulletChar c1 then
         match rest1 with
         | c2 :: _ => isPySpace c2
         | [] => false
       else
         let ds := rest.takeWhile Char.isDigit
         let after := rest.dropWhile Char.isDigit
         decide (1 ≤ ds.length) && decide (ds.length ≤ 9) &&
         (match after with
          | p :: s :: _ => (p = '.' || p = ')') && isPySpace s
          | _ => false))

/-- `line.strip() == ""`. -/
def isBlankLine (l : List Char) : Bool := l.all isPySpace

/-- A line that ends a list item's continuation run or a paragraph. -/
def isStructuralBreak (l : List Char) : Bool :=
  isBlankLine l || isListLine l || isHeadingLine l || isFenceLine l

/-- An atomic block of phase 1: offsets, text and kind (`id`/`tokens` are
recomputed downstream). -/
structure RawBlock where
  start : Nat
  stop : Nat
  text : List Char
  kind : BlockKind
deriving DecidableEq, Repr

/-- The line scanner of phase 1.  The first argument is fuel (the number
of remaining lines suffices). -/
def scanGo : Nat → Nat → List (List Char) → List RawBlock
  | 0, _, _ => []
  | _ + 1, _, [] => []
  | fuel + 1, pos, line :: rest =>
      if isFenceLine line then
        let body := rest.takeWhile (fun l => !(isFenceLine l))
        let rest2 := rest.dropWhile (fun l => !(isFenceLine l))
        match rest2 with
        | close :: rest3 =>
            let t := line ++ body.flatten ++ close
            ⟨pos, pos + t.length, t, BlockKind.code⟩ ::
              scanGo fuel (pos + t.length) rest3
        | [] =>
            let t := line ++ body.flatten
            [⟨pos, pos + t.length, t, BlockKind.code⟩]
      else if isHeadingLine line then
        ⟨pos, pos + line.length, line, BlockKind.heading⟩ ::
          scanGo fuel (pos + line.length) rest
      else if isListLine line then
        let conts := rest.takeWhile (fun l => !(isStructuralBreak l))
        let rest2 := rest.dropWhile (fun l => !(isStructuralBreak l))
        let t := line ++ conts.flatten
        match rest2 with
        | b :: rest3 =>
            if isBlankLine b then
              ⟨pos, pos + t.length, t, BlockKind.list⟩ ::
                scanGo fuel (pos + t.length + b.length) rest3
            else
              ⟨pos, pos + t.length, t, BlockKind.list⟩ ::
                scanGo fuel (pos + t.length) rest2
        | [] => [⟨pos, pos + t.length, t, BlockKind.list⟩]
      else if isBlankLine line then
        let blanks := rest.takeWhile isBlankLine
        let rest2 := rest.dropWhile isBlankLine
        scanGo fuel (pos + line.length + (blanks.map List.length).sum) rest2
      else
        let conts := rest.takeWhile (fun l => !(isStructuralBreak l))
        let rest2 := rest.dropWhile (fun l => !(isStructuralBreak l))
        let t := line ++ conts.flatten
        ⟨pos, pos + t.length, t, BlockKind.paragraph⟩ ::
          scanGo fuel (pos + t.length) rest2

/-- Phase 1 on a whole document. -/
def docBlocks (text : List Char) : List RawBlock :=
  scanGo (splitlinesKeepends text).length 0 (splitlinesKeepends text)

/-- The packing accumulator (`packed`, `cur_parts`, `cur_start`, `cur_end`,
`cur_tokens`, `cur_kind`). -/
structure PackState where
  packed : List Chunk
  cur_parts : List (List Char)
  cur_start : Option Nat
  cur_end : Option Nat
  cur_tokens : Nat
  cur_kind : BlockKind

def initPack : PackState :=
  ⟨[], [], none, none, 0, BlockKind.section⟩

/-- `flush()`: emit the buffer as a chunk (no-op on an empty buffer). -/
def flushBuf (s : PackState) : PackState :=
  if s.cur_parts.isEmpty then s
  else
    let txt := s.cur_parts.flatten
    let c : Chunk :=
      { idx := s.packed.length, start := s.cur_start.getD 0,
        stop := s.cur_end.getD 0, text := txt, tokens := wordCount txt,
        kind := s.cur_kind }
    { packed := s.packed ++ [c], cur_parts := [], cur_start := none,
      cur_end := none, cur_tokens := 0, cur_kind := BlockKind.section }

/-- Start a fresh buffer holding block `b`. -/
def withNewBuf (packed : List Chunk) (b : RawBlock) (btok : Nat) :
    PackState :=
  { packed := packed, cur_parts := [b.text], cur_start := some b.start,
    cur_end := some b.stop, cur_tokens := btok, cur_kind := b.kind }

/-- One step of the packing loop over blocks. -/
def packStep (s : PackState) (b : RawBlock) : PackState :=
  let btok := wordCount b.text
  if 4000 < btok && s.cur_parts.isEmpty then
    let c : Chunk :=
      { idx := s.packed.length, start := b.start, stop := b.stop,
        text := b.text, tokens := btok, kind := b.kind }
    { s with packed := s.packed ++ [c] }
  else if s.cur_parts.isEmpty then
    withNewBuf s.packed b btok
  else if s.cur_tokens + btok ≤ 4000 then
    { s with
      cur_parts := s.cur_parts ++ [b.text],
      cur_end := some b.stop,
      cur_tokens := s.cur_tokens + btok,
      cur_kind := if s.cur_kind = b.kind then s.cur_kind
                  else BlockKind.section }
  else if 2000 ≤ s.cur_tokens then
    withNewBuf (flushBuf s).packed b btok
  else
    match s.packed.getLast? with
    | some last =>
        if last.tokens + s.cur_tokens ≤ 4000 then
          let c : Chunk :=
            { idx := s.packed.dropLast.length, start := last.start,
              stop := s.cur_end.getD 0,
              text := last.text ++ s.cur_parts.flatten,
              tokens := wordCount (last.text ++ s.cur_parts.flatten),
              kind := BlockKind.section }
          withNewBuf (s.packed.dropLast ++ [c]) b btok
        else withNewBuf (flushBuf s).packed b btok
    | none => withNewBuf (flushBuf s).packed b btok

/-- The final flush, with the merge-into-previous attempt for an
undersized trailing buffer (the token count of the previous chunk is
recomputed from its text here, exactly as in the source). -/
def packFinal (s : PackState) : List Chunk :=
  if s.cur_parts.isEmpty then s.packed
  else
    match s.packed.getLast? with
    | some last =>
        if wordCount last.text + s.cur_tokens ≤ 4000 ∧
            s.cur_tokens < 2000 then
          let c : Chunk :=
            { idx := s.packed.dropLast.length, start := last.start,
              stop := s.cur_end.getD 0,
              text := last.text ++ s.cur_parts.flatten,
              tokens := wordCount (last.text ++ s.cur_parts.flatten),
              kind := BlockKind.section }
          s.packed.dropLast ++ [c]
        else (flushBuf s).packed
    | none => (flushBuf s).packed

/-- Phase 2: pack blocks into chunks. -/
def packBlocks (blocks : List RawBlock) : List Chunk :=
  packFinal (blocks.foldl packStep initPack)

/-- `split(text)`: the whole segmenter. -/
def split (text : List Char) : List Chunk :=
  packBlocks (docBlocks text)

/-! ### Tokenizer and line lemmas -/

/-- Whether the scanner state after reading `l` (starting from flag `f`) is
inside a word. -/
def endFlag (f : Bool) : List Char → Bool
  | [] => f
  | c :: cs => endFlag (!(isPySpace c)) cs

theorem wordCountAux_cons_space (f : Bool) (c : Char) (l : List Char)
    (h : isPySpace c = true) :
    wordCountAux f (c :: l) = wordCountAux false l := by
  simp [wordCountAux, h]

theorem wordCountAux_cons_word (f : Bool) (c : Char) (l : List Char)
    (h : isPySpace c = false) :
    wordCountAux f (c :: l) = (if f then 0 else 1) + wordCountAux true l := by
  simp [wordCountAux, h]

theorem endFlag_cons (f : Bool) (c : Char) (l : List Char) :
    endFlag f (c :: l) = endFlag (!(isPySpace c)) l := rfl

theorem wordCountAux_append (f : Bool) (a b : List Char) :
    wordCountAux f (a ++ b)
      = wordCountAux f a + wordCountAux (endFlag f a) b := by
  induction a generalizing f with
  | nil =>
      rw [List.nil_append, show wordCountAux f [] = 0 from rfl,
        show endFlag f [] = f from rfl]
      omega
  | cons c cs ih =>
      rw [List.cons_append, endFlag_cons]
      cases h : isPySpace c
      · rw [wordCountAux_cons_word f c _ h, wordCountAux_cons_word f c _ h,
          ih true]
        simp only [h, Bool.not_false]
        omega
      · rw [wordCountAux_cons_space f c _ h, wordCountAux_cons_space f c _ h,
          ih false]
        simp only [h, Bool.not_true]

theorem wordCountAux_true_le (l : List Char) :
    wordCountAux true l ≤ wordCountAux false l := by
  induction l with
  | nil => exact le_refl _
  | cons c cs ih =>
      cases h : isPySpace c
      · rw [wordCountAux_cons_word true c _ h,
          wordCountAux_cons_word false c _ h]
        simp
      · rw [wordCountAux_cons_space true c _ h,
          wordCountAux_cons_space false c _ h]

theorem wordCount_append_le (a b : List Char) :
    wordCount (a ++ b) ≤ wordCount a + wordCount b := by
  rw [wordCount, wordCountAux_append]
  cases hf : endFlag false a
  · exact le_refl _
  · exact Nat.add_le_add_left (wordCountAux_true_le b) _

theorem wordCount_join_le (l : List (List Char)) :
    wordCount l.flatten ≤ (l.map wordCount).sum := by
  induction l with
  | nil => exact le_refl _
  | cons a rest ih =>
      simp only [List.flatten_cons, List.map_cons, List.sum_cons]
      exact le_trans (wordCount_append_le a rest.flatten)
        (Nat.add_le_add_left ih _)

theorem splitlines_join (s : List Char) :
    (splitlinesKeepends s).flatten = s := by
  induction s using splitlinesKeepends.induct with
  | case1 => rfl
  | case2 c => rfl
  | case3 c d rest hcd ih =>
      obtain ⟨hc, hd⟩ : c = '\r' ∧ d = '\n' := by simpa using hcd
      subst hc
      subst hd
      rw [splitlinesKeepends, if_pos hcd]
      simp [ih]
  | case4 c d rest hcd hbr ih =>
      rw [splitlinesKeepends, if_neg hcd, if_pos hbr]
      simp [ih]
  | case5 c d rest hcd hbr hnil ih =>
      rw [hnil] at ih
      exact absurd ih.symm (by simp)
  | case6 c d rest hcd hbr l ls hcons ih =>
      rw [splitlinesKeepends, if_neg hcd, if_neg hbr, hcons]
      rw [hcons] at ih
      simp only [List.flatten_cons] at ih ⊢
      rw [List.cons_append, ih]

/-- `InterleavedWS parts text`: the text is the parts concatenated in
order, separated (and preceded/followed) by possibly-empty all-whitespace
segments — "the parts tile the text up to skipped whitespace runs". -/
inductive InterleavedWS : List (List Char) → List Char → Prop where
  | nil : ∀ ws : List Char, (∀ c ∈ ws, isPySpace c = true) →
      InterleavedWS [] ws
  | cons : ∀ (ws p : List Char) (ps : List (List Char)) (rest : List Char),
      (∀ c ∈ ws, isPySpace c = true) → InterleavedWS ps rest →
      InterleavedWS (p :: ps) (ws ++ (p ++ rest))

theorem InterleavedWS.prependWS (g : List Char)
    (hg : ∀ c ∈ g, isPySpace c = true) {ps : List (List Char)}
    {rest : List Char} (h : InterleavedWS ps rest) :
    InterleavedWS ps (g ++ rest) := by
  induction h with
  | nil ws hws =>
      refine InterleavedWS.nil (g ++ ws) ?_
      intro c hc
      rcases List.mem_append.mp hc with h' | h'
      · exact hg c h'
      · exact hws c h'
  | cons ws p ps rest hws h2 _ih =>
      rw [← List.append_assoc]
      refine InterleavedWS.cons (g ++ ws) p ps rest ?_ h2
      intro c hc
      rcases List.mem_append.mp hc with h' | h'
      · exact hg c h'
      · exact hws c h'

theorem InterleavedWS.consHead (p : List Char) (ps : List (List Char))
    (rest : List Char) (h : InterleavedWS ps rest) :
    InterleavedWS (p :: ps) (p ++ rest) := by
  have h2 := InterleavedWS.cons [] p ps rest (by intro c hc; cases hc) h
  simpa using h2

theorem InterleavedWS.singletonSelf (p : List Char) :
    InterleavedWS [p] p := by
  have h2 := InterleavedWS.consHead p [] []
    (InterleavedWS.nil [] (by intro c hc; cases hc))
  simpa using h2

theorem isBlankLine_ws (l : List Char) (h : isBlankLine l = true) :
    ∀ c ∈ l, isPySpace c = true := by
  simpa [isBlankLine, List.all_eq_true] using h

theorem blanks_join_ws (ls : List (List Char))
    (h : ∀ l ∈ ls, isBlankLine l = true) :
    ∀ c ∈ ls.flatten, isPySpace c = true := by
  intro c hc
  obtain ⟨l, hl, hcl⟩ := List.mem_flatten.mp hc
  exact isBlankLine_ws l (h l hl) c hcl

theorem dropWhile_length_le (p : α → Bool) (l : List α) :
    (l.dropWhile p).length ≤ l.length := by
  conv_rhs => rw [← List.takeWhile_append_dropWhile p l]
  rw [List.length_append]
  omega

theorem scanGo_interleaved (fuel : Nat) :
    ∀ (pos : Nat) (ls : List (List Char)), ls.length ≤ fuel →
    InterleavedWS ((scanGo fuel pos ls).map (fun b => b.text)) ls.flatten := by
  induction fuel with
  | zero =>
      intro pos ls hlen
      have hnil : ls = [] := List.length_eq_zero.mp (Nat.le_zero.mp hlen)
      subst hnil
      exact InterleavedWS.nil [] (by intro c hc; cases hc)
  | succ f ih =>
      intro pos ls hlen
      cases ls with
      | nil => exact InterleavedWS.nil [] (by intro c hc; cases hc)
      | cons line rest =>
          have hrest : rest.length ≤ f := by
            simpa using hlen
          rw [scanGo]
          by_cases hf : isFenceLine line = true
          · rw [if_pos hf]
            simp only []
            cases hr2 : rest.dropWhile (fun l => !(isFenceLine l)) with
            | nil =>
                have hbody : rest.takeWhile (fun l => !(isFenceLine l))
                    = rest := by
                  conv_rhs => rw [← List.takeWhile_append_dropWhile
                    (fun l => !(isFenceLine l)) rest]
                  rw [hr2, List.append_nil]
                have hj : (line :: rest).flatten =
                    line ++ (rest.takeWhile (fun l => !(isFenceLine l))).flatten := by
                  rw [List.flatten_cons, hbody]
                rw [hj]
                exact InterleavedWS.singletonSelf _
            | cons close rest3 =>
                have hlen3 : rest3.length ≤ f := by
                  have h1 := dropWhile_length_le
                    (fun l => !(isFenceLine l)) rest
                  rw [hr2] at h1
                  simp only [List.length_cons] at h1
                  omega
                have hj : (line :: rest).flatten =
                    (line ++ (rest.takeWhile (fun l => !(isFenceLine l))).flatten
                      ++ close) ++ rest3.flatten := by
                  conv_lhs => rw [List.flatten_cons,
                    ← List.takeWhile_append_dropWhile
                      (fun l => !(isFenceLine l)) rest, hr2]
                  rw [List.flatten_append, List.flatten_cons]
                  simp [List.append_assoc]
                rw [hj]
                exact InterleavedWS.consHead _ _ _ (ih _ rest3 hlen3)
          · rw [if_neg hf]
            by_cases hh : isHeadingLine line = true
            · rw [if_pos hh]
              rw [List.flatten_cons]
              exact InterleavedWS.consHead _ _ _ (ih _ rest hrest)
            · rw [if_neg hh]
              by_cases hl : isListLine line = true
              · rw [if_pos hl]
                simp only []
                split
                · rename_i b rest3 heq
                  have hlen3 : rest3.length ≤ f := by
                    have h1 := dropWhile_length_le
                      (fun l => !(isStructuralBreak l)) rest
                    rw [heq] at h1
                    simp only [List.length_cons] at h1
                    omega
                  split
                  · rename_i hb
                    have hj : (line :: rest).flatten =
                        (line ++ (rest.takeWhile
                          (fun l => !(isStructuralBreak l))).flatten) ++
                          (b ++ rest3.flatten) := by
                      conv_lhs => rw [List.flatten_cons,
                        ← List.takeWhile_append_dropWhile
                          (fun l => !(isStructuralBreak l)) rest, heq]
                      rw [List.flatten_append, List.flatten_cons]
                      simp [List.append_assoc]
                    rw [hj]
                    exact InterleavedWS.consHead _ _ _
                      (InterleavedWS.prependWS b (isBlankLine_ws b
                        (by simpa using hb)) (ih _ rest3 hlen3))
                  · rename_i hb
                    have hlen2 : (rest.dropWhile
                        (fun l => !(isStructuralBreak l))).length ≤ f :=
                      le_trans (dropWhile_length_le _ rest) hrest
                    have hj : (line :: rest).flatten =
                        (line ++ (rest.takeWhile
                          (fun l => !(isStructuralBreak l))).flatten) ++
                          (rest.dropWhile
                            (fun l => !(isStructuralBreak l))).flatten := by
                      conv_lhs => rw [List.flatten_cons,
                        ← List.takeWhile_append_dropWhile
                          (fun l => !(isStructuralBreak l)) rest]
                      rw [List.flatten_append]
                      simp [List.append_assoc]
                    rw [hj]
                    exact InterleavedWS.consHead _ _ _ (ih _ _ hlen2)
                · rename_i heq
                  have hbody : rest.takeWhile (fun l => !(isStructuralBreak l))
                      = rest := by
                    conv_rhs => rw [← List.takeWhile_append_dropWhile
                      (fun l => !(isStructuralBreak l)) rest]
                    rw [heq, List.append_nil]
                  have hj : (line :: rest).flatten = line ++
                      (rest.takeWhile (fun l => !(isStructuralBreak l))).flatten := by
                    rw [List.flatten_cons, hbody]
                  rw [hj]
                  exact InterleavedWS.singletonSelf _
              · rw [if_neg hl]
                by_cases hbl : isBlankLine line = true
                · rw [if_pos hbl]
                  simp only []
                  have hj : (line :: rest).flatten =
                      (line ++ (rest.takeWhile isBlankLine).flatten) ++
                        (rest.dropWhile isBlankLine).flatten := by
                    conv_lhs => rw [List.flatten_cons,
                      ← List.takeWhile_append_dropWhile isBlankLine rest]
                    rw [List.flatten_append]
                    simp [List.append_assoc]
                  have hws : ∀ c ∈ line ++ (rest.takeWhile isBlankLine).flatten,
                      isPySpace c = true := by
                    intro c hc
                    rcases List.mem_append.mp hc with h' | h'
                    · exact isBlankLine_ws line hbl c h'
                    · exact blanks_join_ws _
                        (fun l hl' => List.mem_takeWhile_imp hl') c h'
                  have hlen2 : (rest.dropWhile isBlankLine).length ≤ f :=
                    le_trans (dropWhile_length_le isBlankLine rest) hrest
                  rw [hj]
                  exact InterleavedWS.prependWS _ hws (ih _ _ hlen2)
                · rw [if_neg hbl]
                  simp only []
                  have hlen2 : (rest.dropWhile
                      (fun l => !(isStructuralBreak l))).length ≤ f :=
                    le_trans (dropWhile_length_le _ rest) hrest
                  have hj : (line :: rest).flatten =
                      (line ++ (rest.takeWhile
                        (fun l => !(isStructuralBreak l))).flatten) ++
                        (rest.dropWhile (fun l => !(isStructuralBreak l))).flatten := by
                    conv_lhs => rw [List.flatten_cons,
                      ← List.takeWhile_append_dropWhile
                        (fun l => !(isStructuralBreak l)) rest]
                    rw [List.flatten_append]
                    simp [List.append_assoc]
                  rw [hj]
                  exact InterleavedWS.consHead _ _ _ (ih _ _ hlen2)

theorem chain'_cons_of_bound (blk : RawBlock) (l : List RawBlock)
    (bound : Nat) (h1 : blk.stop ≤ bound) (h2 : ∀ y ∈ l, bound ≤ y.start)
    (h3 : List.Chain' (fun a b => a.stop ≤ b.start) l) :
    List.Chain' (fun a b => a.stop ≤ b.start) (blk :: l) := by
  refine List.chain'_cons'.mpr ⟨?_, h3⟩
  intro y hy
  exact le_trans h1 (h2 y (List.mem_of_mem_head? hy))

theorem scanGo_offsets (fuel : Nat) :
    ∀ (pos : Nat) (ls : List (List Char)), ls.length ≤ fuel →
    List.Chain' (fun a b => a.stop ≤ b.start) (scanGo fuel pos ls) ∧
    (∀ b ∈ scanGo fuel pos ls,
      pos ≤ b.start ∧ b.stop = b.start + b.text.length) := by
  induction fuel with
  | zero =>
      intro pos ls hlen
      have hnil : ls = [] := List.length_eq_zero.mp (Nat.le_zero.mp hlen)
      subst hnil
      exact ⟨List.chain'_nil, by intro b hb; cases hb⟩
  | succ f ih =>
      intro pos ls hlen
      cases ls with
      | nil => exact ⟨List.chain'_nil, by intro b hb; cases hb⟩
      | cons line rest =>
          have hrest : rest.length ≤ f := by simpa using hlen
          rw [scanGo]
          by_cases hf : isFenceLine line = true
          · rw [if_pos hf]
            simp only []
            split
            · rename_i close rest3 heq
              have hlen3 : rest3.length ≤ f := by
                have h1 := dropWhile_length_le
                  (fun l => !(isFenceLine l)) rest
                rw [heq] at h1
                simp only [List.length_cons] at h1
                omega
              obtain ⟨ihc, ihm⟩ := ih _ rest3 hlen3
              constructor
              · exact chain'_cons_of_bound _ _ _ (le_refl _)
                  (fun y hy => (ihm y hy).1) ihc
              · intro b hb
                rcases List.mem_cons.mp hb with rfl | hb'
                · exact ⟨le_refl _, rfl⟩
                · exact ⟨le_trans (Nat.le_add_right pos _) (ihm b hb').1,
                    (ihm b hb').2⟩
            · constructor
              · exact List.chain'_singleton _
              · intro b hb
                rcases List.mem_cons.mp hb with rfl | hb'
                · exact ⟨le_refl _, rfl⟩
                · cases hb'
          · rw [if_neg hf]
            by_cases hh : isHeadingLine line = true
            · rw [if_pos hh]
              obtain ⟨ihc, ihm⟩ := ih (pos + line.length) rest hrest
              constructor
              · exact chain'_cons_of_bound _ _ _ (le_refl _)
                  (fun y hy => (ihm y hy).1) ihc
              · intro b hb
                rcases List.mem_cons.mp hb with rfl | hb'
                · exact ⟨le_refl _, rfl⟩
                · exact ⟨le_trans (Nat.le_add_right pos _) (ihm b hb').1,
                    (ihm b hb').2⟩
            · rw [if_neg hh]
              by_cases hl : isListLine line = true
              · rw [if_pos hl]
                simp only []
                split
                · rename_i b0 rest3 heq
                  have hlen3 : rest3.length ≤ f := by
                    have h1 := dropWhile_length_le
                      (fun l => !(isStructuralBreak l)) rest
                    rw [heq] at h1
                    simp only [List.length_cons] at h1
                    omega
                  have hlen2 : (rest.dropWhile
                      (fun l => !(isStructuralBreak l))).length ≤ f :=
                    le_trans (dropWhile_length_le _ rest) hrest
                  split
                  · rename_i hb0
                    obtain ⟨ihc, ihm⟩ := ih _ rest3 hlen3
                    constructor
                    · exact chain'_cons_of_bound _ _ _
                        (Nat.le_add_right _ _)
                        (fun y hy => (ihm y hy).1) ihc
                    · intro b hb
                      rcases List.mem_cons.mp hb with rfl | hb'
                      · exact ⟨le_refl _, rfl⟩
                      · refine ⟨?_, (ihm b hb').2⟩
                        refine le_trans ?_ (ihm b hb').1
                        omega
                  · rename_i hb0
                    obtain ⟨ihc, ihm⟩ := ih _ _ hlen2
                    constructor
                    · exact chain'_cons_of_bound _ _ _ (le_refl _)
                        (fun y hy => (ihm y hy).1) ihc
                    · intro b hb
                      rcases List.mem_cons.mp hb with rfl | hb'
                      · exact ⟨le_refl _, rfl⟩
                      · exact ⟨le_trans (Nat.le_add_right pos _)
                          (ihm b hb').1, (ihm b hb').2⟩
                · constructor
                  · exact List.chain'_singleton _
                  · intro b hb
                    rcases List.mem_cons.mp hb with rfl | hb'
                    · exact ⟨le_refl _, rfl⟩
                    · cases hb'
              · rw [if_neg hl]
                by_cases hbl : isBlankLine line = true
                · rw [if_pos hbl]
                  simp only []
                  have hlen2 : (rest.dropWhile isBlankLine).length ≤ f :=
                    le_trans (dropWhile_length_le isBlankLine rest) hrest
                  obtain ⟨ihc, ihm⟩ := ih _ _ hlen2
                  refine ⟨ihc, ?_⟩
                  intro b hb
                  refine ⟨le_trans ?_ (ihm b hb).1, (ihm b hb).2⟩
                  omega
                · rw [if_neg hbl]
                  simp only []
                  have hlen2 : (rest.dropWhile
                      (fun l => !(isStructuralBreak l))).length ≤ f :=
                    le_trans (dropWhile_length_le _ rest) hrest
                  obtain ⟨ihc, ihm⟩ := ih _ _ hlen2
                  constructor
                  · exact chain'_cons_of_bound _ _ _ (le_refl _)
                      (fun y hy => (ihm y hy).1) ihc
                  · intro b hb
                    rcases List.mem_cons.mp hb with rfl | hb'
                    · exact ⟨le_refl _, rfl⟩
                    · exact ⟨le_trans (Nat.le_add_right pos _)
                        (ihm b hb').1, (ihm b hb').2⟩

/-! ### Packing lemmas -/

theorem dropLast_append_of_getLast? {l : List Chunk} {a : Chunk}
    (h : l.getLast? = some a) : l.dropLast ++ [a] = l := by
  induction l using List.reverseRecOn with
  | nil => simp at h
  | append_singleton l' x _ =>
      rw [List.getLast?_concat] at h
      obtain rfl : x = a := by simpa using h
      rw [List.dropLast_concat]

/-- The concatenated text carried by a packing state: emitted chunks
followed by the open buffer. -/
def packJoin (s : PackState) : List Char :=
  ((s.packed.map (fun c => c.text)).flatten) ++ s.cur_parts.flatten

theorem flushBuf_packed_join (s : PackState) :
    (((flushBuf s).packed.map (fun c => c.text)).flatten) = packJoin s := by
  rw [flushBuf]
  split
  · rename_i hemp
    have hemp' : s.cur_parts = [] := by simpa [List.isEmpty_iff] using hemp
    simp [packJoin, hemp']
  · simp [packJoin, List.flatten_append]

theorem withNewBuf_packJoin (packed : List Chunk) (b : RawBlock)
    (btok : Nat) :
    packJoin (withNewBuf packed b btok)
      = ((packed.map (fun c => c.text)).flatten) ++ b.text := by
  simp [packJoin, withNewBuf]

theorem packJoin_step (s : PackState) (b : RawBlock) :
    packJoin (packStep s b) = packJoin s ++ b.text := by
  rw [packStep]
  simp only []
  split
  · rename_i hcond
    have hemp : s.cur_parts = [] := by
      simpa [List.isEmpty_iff] using (Bool.and_elim_right hcond)
    simp [packJoin, hemp, List.flatten_append]
  · split
    · rename_i hcond hemp
      have hemp' : s.cur_parts = [] := by simpa [List.isEmpty_iff] using hemp
      simp [packJoin, withNewBuf, hemp']
    · split
      · simp [packJoin, List.flatten_append]
      · split
        · rw [withNewBuf_packJoin, flushBuf_packed_join]
        · split
          · rename_i last hlast
            split
            · rw [withNewBuf_packJoin]
              conv_rhs => rw [packJoin, ← dropLast_append_of_getLast? hlast]
              simp [List.flatten_append, List.append_assoc]
            · rw [withNewBuf_packJoin, flushBuf_packed_join]
          · rw [withNewBuf_packJoin, flushBuf_packed_join]

theorem packJoin_fold (blocks : List RawBlock) :
    ∀ s : PackState, packJoin (blocks.foldl packStep s)
      = packJoin s ++ ((blocks.map (fun b => b.text)).flatten) := by
  induction blocks with
  | nil => intro s; simp
  | cons b rest ih =>
      intro s
      rw [List.foldl_cons, ih (packStep s b), packJoin_step]
      simp [List.append_assoc]

theorem packFinal_join (s : PackState) :
    (((packFinal s).map (fun c => c.text)).flatten) = packJoin s := by
  rw [packFinal]
  split
  · rename_i hemp
    have hemp' : s.cur_parts = [] := by simpa [List.isEmpty_iff] using hemp
    simp [packJoin, hemp']
  · rename_i hemp
    split
    · rename_i last hlast
      split
      · rename_i hcond
        conv_rhs => rw [packJoin, ← dropLast_append_of_getLast? hlast]
        simp [List.flatten_append, List.append_assoc]
      · rw [flushBuf_packed_join]
    · rw [flushBuf_packed_join]

theorem split_join_eq_blocks_join (text : List Char) :
    (((split text).map (fun c => c.text)).flatten)
      = (((docBlocks text).map (fun b => b.text)).flatten) := by
  rw [split, packBlocks, packFinal_join, packJoin_fold]
  simp [packJoin, initPack]

/-- The stop offset of the last emitted chunk (0 when none). -/
def lastStop (l : List Chunk) : Nat := (l.getLast?).elim 0 (fun c => c.stop)

theorem lastStop_concat (l : List Chunk) (c : Chunk) :
    lastStop (l ++ [c]) = c.stop := by
  simp [lastStop, List.getLast?_concat]

theorem lastStop_of_getLast? {l : List Chunk} {a : Chunk}
    (h : l.getLast? = some a) : lastStop l = a.stop := by
  simp [lastStop, h]

theorem chunkChain_snoc (l : List Chunk) (c : Chunk)
    (h : List.Chain' (fun a b => a.stop ≤ b.start) l)
    (hl : lastStop l ≤ c.start) :
    List.Chain' (fun a b => a.stop ≤ b.start) (l ++ [c]) := by
  refine List.chain'_append.mpr ⟨h, List.chain'_singleton _, ?_⟩
  intro x hx y hy
  have hy' : c = y := by simpa using hy
  subst hy'
  rw [← lastStop_of_getLast? hx]
  exact hl

theorem chunkChain_dropLast {l : List Chunk} {a : Chunk}
    (h : List.Chain' (fun x y => x.stop ≤ y.start) l)
    (ha : l.getLast? = some a) :
    List.Chain' (fun x y => x.stop ≤ y.start) l.dropLast ∧
    lastStop l.dropLast ≤ a.start := by
  have hdecomp := dropLast_append_of_getLast? ha
  rw [← hdecomp] at h
  obtain ⟨h1, _, h3⟩ := List.chain'_append.mp h
  refine ⟨h1, ?_⟩
  cases hld : l.dropLast.getLast? with
  | none => simp [lastStop, hld]
  | some x =>
      rw [lastStop_of_getLast? hld]
      exact h3 x hld a (by simp)

theorem mem_of_getLast? {l : List Chunk} {a : Chunk}
    (h : l.getLast? = some a) : a ∈ l := by
  rw [← dropLast_append_of_getLast? h]
  simp

/-- Per-chunk token property: the recorded count is the count of the text,
and it is within the MAX bound unless the chunk is a single oversized
atomic block (never merged with neighbours). -/
def chunkTok (B : List RawBlock) (c : Chunk) : Prop :=
  c.tokens = wordCount c.text ∧
  (c.tokens ≤ 4000 ∨ ∃ b ∈ B, c.text = b.text ∧ 4000 < wordCount b.text)

/-- The packing-loop invariant: emitted chunks are ordered and disjoint
with sound token counts; the buffer's token counter is the sum of its
parts' counts; offsets of the open buffer sit between the last emitted
chunk and the frontier `f`; and the buffer total is within MAX except for
a single oversized block. -/
def PInv (B : List RawBlock) (s : PackState) (f : Nat) : Prop :=
  List.Chain' (fun a b => a.stop ≤ b.start) s.packed ∧
  (∀ c ∈ s.packed, c.start ≤ c.stop ∧ chunkTok B c) ∧
  s.cur_tokens = (s.cur_parts.map wordCount).sum ∧
  (s.cur_parts = [] → lastStop s.packed ≤ f) ∧
  (s.cur_parts ≠ [] → ∃ cs ce, s.cur_start = some cs ∧
    s.cur_end = some ce ∧ lastStop s.packed ≤ cs ∧ cs ≤ ce ∧ ce ≤ f) ∧
  (s.cur_tokens ≤ 4000 ∨
    ∃ b ∈ B, s.cur_parts = [b.text] ∧ 4000 < wordCount b.text)

theorem flushBuf_packed_of_ne (s : PackState) (hne : ¬ s.cur_parts.isEmpty = true) :
    (flushBuf s).packed = s.packed ++
      [{ idx := s.packed.length, start := s.cur_start.getD 0,
         stop := s.cur_end.getD 0, text := s.cur_parts.flatten,
         tokens := wordCount s.cur_parts.flatten, kind := s.cur_kind }] := by
  rw [flushBuf, if_neg hne]

theorem PInv_flush_new (B : List RawBlock) (s : PackState) (f : Nat)
    (b : RawBlock) (h : PInv B s f) (hne : ¬ s.cur_parts.isEmpty = true)
    (hb : b ∈ B) (hf : f ≤ b.start) (hbs : b.start ≤ b.stop) :
    PInv B (withNewBuf (flushBuf s).packed b (wordCount b.text)) b.stop := by
  obtain ⟨hchain, hmem, hsum, _hempF, hneF, hbound⟩ := h
  have hne' : s.cur_parts ≠ [] := by
    simpa [List.isEmpty_iff] using hne
  obtain ⟨cs, ce, hcs, hce, h1, h2, h3⟩ := hneF hne'
  have hpack := flushBuf_packed_of_ne s hne
  refine ⟨?_, ?_, ?_, ?_, ?_, ?_⟩
  · show List.Chain' _ (flushBuf s).packed
    rw [hpack]
    refine chunkChain_snoc _ _ hchain ?_
    simp only [hcs, Option.getD_some]
    exact h1
  · show ∀ c ∈ (flushBuf s).packed, _
    rw [hpack]
    intro c hc
    rcases List.mem_append.mp hc with hc' | hc'
    · exact hmem c hc'
    · have hceq := List.mem_singleton.mp hc'
      subst hceq
      refine ⟨?_, rfl, ?_⟩
      · simp only [hcs, hce, Option.getD_some]
        exact h2
      · rcases hbound with hle | ⟨b', hb', hpb, hgt⟩
        · left
          simp only []
          refine le_trans (wordCount_join_le s.cur_parts) ?_
          rw [← hsum]
          exact hle
        · right
          refine ⟨b', hb', ?_, hgt⟩
          simp [hpb]
  · simp [withNewBuf]
  · intro hcontra
    simp [withNewBuf] at hcontra
  · intro _
    refine ⟨b.start, b.stop, rfl, rfl, ?_, hbs, le_refl _⟩
    show lastStop (flushBuf s).packed ≤ b.start
    rw [hpack, lastStop_concat]
    simp only [hce, Option.getD_some]
    exact le_trans h3 hf
  · by_cases hbig : wordCount b.text ≤ 4000
    · left
      exact hbig
    · right
      exact ⟨b, hb, rfl, by omega⟩

theorem PInv_step (B : List RawBlock) (s : PackState) (f : Nat)
    (b : RawBlock) (h : PInv B s f) (hb : b ∈ B) (hf : f ≤ b.start)
    (hbs : b.start ≤ b.stop) : PInv B (packStep s b) b.stop := by
  obtain ⟨hchain, hmem, hsum, hempF, hneF, hbound⟩ := h
  rw [packStep]
  simp only []
  split
  · rename_i hcond
    have h1 : 4000 < wordCount b.text := by
      simpa using (Bool.and_elim_left hcond)
    have hemp : s.cur_parts = [] := by
      simpa [List.isEmpty_iff] using (Bool.and_elim_right hcond)
    refine ⟨?_, ?_, hsum, ?_, ?_, hbound⟩
    · refine chunkChain_snoc _ _ hchain ?_
      exact le_trans (hempF hemp) hf
    · intro c hc
      rcases List.mem_append.mp hc with hc' | hc'
      · exact hmem c hc'
      · have hceq := List.mem_singleton.mp hc'
        subst hceq
        exact ⟨hbs, rfl, Or.inr ⟨b, hb, rfl, h1⟩⟩
    · intro _
      rw [lastStop_concat]
    · intro hcontra
      exact absurd hemp hcontra
  · rename_i hb1
    split
    · rename_i hemp
      have hemp' : s.cur_parts = [] := by simpa [List.isEmpty_iff] using hemp
      have hbtok : wordCount b.text ≤ 4000 := by
        by_contra hgt
        refine hb1 ?_
        simp [hemp, decide_eq_true (by omega : 4000 < wordCount b.text)]
      refine ⟨hchain, hmem, ?_, ?_, ?_, ?_⟩
      · simp [withNewBuf]
      · intro hcontra
        simp [withNewBuf] at hcontra
      · intro _
        exact ⟨b.start, b.stop, rfl, rfl,
          le_trans (hempF hemp') hf, hbs, le_refl _⟩
      · left
        simpa [withNewBuf] using hbtok
    · rename_i hemp
      have hne : s.cur_parts ≠ [] := by
        simpa [List.isEmpty_iff] using hemp
      obtain ⟨cs, ce, hcs, hce, h1, h2, h3⟩ := hneF hne
      split
      · rename_i hle
        refine ⟨hchain, hmem, ?_, ?_, ?_, ?_⟩
        · simp [hsum]
        · intro hcontra
          simp at hcontra
        · intro _
          refine ⟨cs, b.stop, hcs, rfl, h1, ?_, le_refl _⟩
          calc cs ≤ ce := h2
            _ ≤ f := h3
            _ ≤ b.start := hf
            _ ≤ b.stop := hbs
        · left
          exact hle
      · rename_i hle
        split
        · rename_i hmin
          exact PInv_flush_new B s f b
            ⟨hchain, hmem, hsum, hempF, hneF, hbound⟩ hemp hb hf hbs
        · rename_i hmin
          split
          · rename_i last hlast
            split
            · rename_i hmerge
              obtain ⟨hchainD, hlastD⟩ := chunkChain_dropLast hchain hlast
              obtain ⟨hlastse, hlasttok⟩ := hmem last (mem_of_getLast? hlast)
              have hlaststop : last.stop = lastStop s.packed :=
                (lastStop_of_getLast? hlast).symm
              simp only [withNewBuf]
              refine ⟨?_, ?_, ?_, ?_, ?_, ?_⟩
              · exact chunkChain_snoc _ _ hchainD hlastD
              · intro c hc
                rcases List.mem_append.mp hc with hc' | hc'
                · exact hmem c (List.Sublist.mem hc' (List.dropLast_sublist _))
                · have hceq := List.mem_singleton.mp hc'
                  subst hceq
                  refine ⟨?_, rfl, ?_⟩
                  · simp only [hce, Option.getD_some]
                    calc last.start ≤ last.stop := hlastse
                      _ = lastStop s.packed := hlaststop
                      _ ≤ cs := h1
                      _ ≤ ce := h2
                  · left
                    simp only []
                    calc wordCount (last.text ++ s.cur_parts.flatten)
                        ≤ wordCount last.text + wordCount s.cur_parts.flatten :=
                          wordCount_append_le _ _
                      _ ≤ wordCount last.text + (s.cur_parts.map wordCount).sum :=
                          Nat.add_le_add_left (wordCount_join_le _) _
                      _ = last.tokens + s.cur_tokens := by
                          rw [hsum, hlasttok.1]
                      _ ≤ 4000 := hmerge
              · rfl
              · intro hcontra
                simp at hcontra
              · intro _
                refine ⟨b.start, b.stop, rfl, rfl, ?_, hbs, le_refl _⟩
                rw [lastStop_concat]
                simp only [hce, Option.getD_some]
                exact le_trans h3 hf
              · by_cases hbig : wordCount b.text ≤ 4000
                · left
                  exact hbig
                · right
                  exact ⟨b, hb, rfl, by omega⟩
            · rename_i hmerge
              exact PInv_flush_new B s f b
                ⟨hchain, hmem, hsum, hempF, hneF, hbound⟩ hemp hb hf hbs
          · rename_i hlast
            exact PInv_flush_new B s f b
              ⟨hchain, hmem, hsum, hempF, hneF, hbound⟩ hemp hb hf hbs

theorem flushBuf_sound (B : List RawBlock) (s : PackState) (f : Nat)
    (h : PInv B s f) :
    List.Chain' (fun a b => a.stop ≤ b.start) (flushBuf s).packed ∧
    ∀ c ∈ (flushBuf s).packed, c.start ≤ c.stop ∧ chunkTok B c := by
  obtain ⟨hchain, hmem, hsum, hempF, hneF, hbound⟩ := h
  by_cases he : s.cur_parts.isEmpty = true
  · rw [flushBuf, if_pos he]
    exact ⟨hchain, hmem⟩
  · have hne : s.cur_parts ≠ [] := by simpa [List.isEmpty_iff] using he
    obtain ⟨cs, ce, hcs, hce, h1, h2, h3⟩ := hneF hne
    rw [flushBuf_packed_of_ne s he]
    constructor
    · refine chunkChain_snoc _ _ hchain ?_
      simp only [hcs, Option.getD_some]
      exact h1
    · intro c hc
      rcases List.mem_append.mp hc with hc' | hc'
      · exact hmem c hc'
      · have hceq := List.mem_singleton.mp hc'
        subst hceq
        refine ⟨?_, rfl, ?_⟩
        · simp only [hcs, hce, Option.getD_some]
          exact h2
        · rcases hbound with hb4 | hbig
          · left
            show wordCount s.cur_parts.flatten ≤ 4000
            calc wordCount s.cur_parts.flatten
                ≤ (s.cur_parts.map wordCount).sum := wordCount_join_le _
              _ = s.cur_tokens := hsum.symm
              _ ≤ 4000 := hb4
          · obtain ⟨b, hbB, hparts, hbwc⟩ := hbig
            right
            refine ⟨b, hbB, ?_, hbwc⟩
            show s.cur_parts.flatten = b.text
            simp [hparts]

theorem PInv_foldl (B : List RawBlock) :
    ∀ (bs : List RawBlock) (s : PackState) (f : Nat),
    PInv B s f →
    (∀ b ∈ bs, b ∈ B ∧ b.start ≤ b.stop) →
    List.Chain' (fun a b => a.stop ≤ b.start) bs →
    (∀ y ∈ bs.head?, f ≤ y.start) →
    ∃ g, PInv B (bs.foldl packStep s) g := by
  intro bs
  induction bs with
  | nil =>
      intro s f h _ _ _
      exact ⟨f, h⟩
  | cons b rest ih =>
      intro s f h hmem hchain hhead
      have hbB := (hmem b (List.mem_cons_self _ _)).1
      have hbse := (hmem b (List.mem_cons_self _ _)).2
      have hf : f ≤ b.start := hhead b rfl
      have hstep := PInv_step B s f b h hbB hf hbse
      rw [List.foldl_cons]
      obtain ⟨hh, ht⟩ := List.chain'_cons'.mp hchain
      refine ih (packStep s b) b.stop hstep ?_ ht hh
      intro x hx
      exact hmem x (List.mem_cons_of_mem _ hx)

theorem packFinal_sound (B : List RawBlock) (s : PackState) (f : Nat)
    (h : PInv B s f) :
    List.Chain' (fun a b => a.stop ≤ b.start) (packFinal s) ∧
    ∀ c ∈ packFinal s, c.start ≤ c.stop ∧ chunkTok B c := by
  obtain ⟨hchain, hmem, hsum, hempF, hneF, hbound⟩ := h
  rw [packFinal]
  split
  · exact ⟨hchain, hmem⟩
  · rename_i hemp
    have hne : s.cur_parts ≠ [] := by simpa [List.isEmpty_iff] using hemp
    obtain ⟨cs, ce, hcs, hce, h1, h2, h3⟩ := hneF hne
    split
    · rename_i last hlast
      split
      · rename_i hmerge
        obtain ⟨hm1, hm2⟩ := hmerge
        obtain ⟨hchainD, hlastD⟩ := chunkChain_dropLast hchain hlast
        obtain ⟨hlastse, hlasttok⟩ := hmem last (mem_of_getLast? hlast)
        have hlaststop : last.stop = lastStop s.packed :=
          (lastStop_of_getLast? hlast).symm
        simp only []
        constructor
        · exact chunkChain_snoc _ _ hchainD hlastD
        · intro c hc
          rcases List.mem_append.mp hc with hc' | hc'
          · exact hmem c (List.Sublist.mem hc' (List.dropLast_sublist _))
          · have hceq := List.mem_singleton.mp hc'
            subst hceq
            refine ⟨?_, rfl, ?_⟩
            · simp only [hce, Option.getD_some]
              calc last.start ≤ last.stop := hlastse
                _ = lastStop s.packed := hlaststop
                _ ≤ cs := h1
                _ ≤ ce := h2
            · left
              show wordCount (last.text ++ s.cur_parts.flatten) ≤ 4000
              calc wordCount (last.text ++ s.cur_parts.flatten)
                  ≤ wordCount last.text + wordCount s.cur_parts.flatten :=
                    wordCount_append_le _ _
                _ ≤ wordCount last.text + (s.cur_parts.map wordCount).sum :=
                    Nat.add_le_add_left (wordCount_join_le _) _
                _ = wordCount last.text + s.cur_tokens := by rw [hsum]
                _ ≤ 4000 := hm1
      · exact flushBuf_sound B s f
          ⟨hchain, hmem, hsum, hempF, hneF, hbound⟩
    · exact flushBuf_sound B s f
        ⟨hchain, hmem, hsum, hempF, hneF, hbound⟩

theorem split_sound (text : List Char) :
    List.Chain' (fun a b => a.stop ≤ b.start) (split text) ∧
    ∀ c ∈ split text, c.start ≤ c.stop ∧ chunkTok (docBlocks text) c := by
  have hoff := scanGo_offsets (splitlinesKeepends text).length 0
      (splitlinesKeepends text) (le_refl _)
  have hinit : PInv (docBlocks text) initPack 0 := by
    refine ⟨List.chain'_nil, ?_, rfl, ?_, ?_, Or.inl (by decide)⟩
    · intro c hc
      cases hc
    · intro _
      exact Nat.zero_le _
    · intro hcontra
      exact absurd rfl hcontra
  have hmemB : ∀ b ∈ docBlocks text, b ∈ docBlocks text ∧ b.start ≤ b.stop := by
    intro b hb
    refine ⟨hb, ?_⟩
    have := (hoff.2 b (by rw [docBlocks] at hb; exact hb)).2
    omega
  have hchainB : List.Chain' (fun a b => a.stop ≤ b.start) (docBlocks text) := by
    rw [docBlocks]
    exact hoff.1
  have hheadB : ∀ y ∈ (docBlocks text).head?, 0 ≤ y.start := by
    intro y hy
    exact Nat.zero_le _
  obtain ⟨g, hg⟩ := PInv_foldl (docBlocks text) (docBlocks text) initPack 0
    hinit hmemB hchainB hheadB
  rw [split, packBlocks]
  exact packFinal_sound (docBlocks text) _ g hg

/-! ### Claims C1 and C3: segmenter coverage and packing bounds -/

/-- A document that is a single unterminated code fence. -/
def unterminatedFenceDoc : List Char :=
  [backtickChar, backtickChar, backtickChar] ++
  ('p' :: 'y' :: '\n' :: 'c' :: 'o' :: 'd' :: 'e' :: [])

/-- The single chunk produced for the two-character document "hi". -/
def hiChunk : Chunk :=
  { idx := 0, start := 0, stop := 2, text := ['h', 'i'], tokens := 1,
    kind := BlockKind.paragraph }

/-- C1 counterexample: a document consisting of one blank line yields no
chunks at all, so the concatenation of chunk texts is empty and does not
equal the (non-empty) original document — runs of blank lines are skipped
by the scanner and leave gaps, refuting the exact-tiling claim. -/
theorem C1_counterexample_blank_line_dropped :
    ((split ('\n' :: [])).map (fun c => c.text)).flatten = [] ∧
    ('\n' :: []) ≠ ([] : List Char) := by decide

/-- C1 (amended): empty input yields zero chunks; the chunks of
`split text` are ordered with non-overlapping offset ranges; the
concatenation of chunk texts equals the concatenation of the scanner's
block texts, and the document is exactly those block texts interleaved
with (dropped) runs of whitespace-only lines — so the chunks tile the
document up to gaps of blank lines; an unterminated code fence yields a
single chunk extending to the end of input. -/
theorem C1_coverage_up_to_blank_runs (text : List Char) :
    (text = [] → split text = []) ∧
    List.Chain' (fun a b => a.stop ≤ b.start) (split text) ∧
    (∀ c ∈ split text, c.start ≤ c.stop) ∧
    ((split text).map (fun c => c.text)).flatten
      = ((docBlocks text).map (fun b => b.text)).flatten ∧
    InterleavedWS ((docBlocks text).map (fun b => b.text)) text ∧
    split unterminatedFenceDoc =
      [{ idx := 0, start := 0, stop := unterminatedFenceDoc.length,
         text := unterminatedFenceDoc, tokens := 2,
         kind := BlockKind.code }] := by
  obtain ⟨hchain, hmem⟩ := split_sound text
  refine ⟨?_, hchain, ?_, split_join_eq_blocks_join text, ?_, by decide⟩
  · intro h
    subst h
    decide
  · intro c hc
    exact (hmem c hc).1
  · have hint := scanGo_interleaved (splitlinesKeepends text).length 0
      (splitlinesKeepends text) (le_refl _)
    rw [splitlines_join text] at hint
    rw [docBlocks]
    exact hint

/-- Instance of the amended C1 theorem at concrete inputs: empty input
gives no chunks, and the chunk of the document "hi" has ordered offsets. -/
theorem C1_coverage_up_to_blank_runs_witness :
    split ([] : List Char) = [] ∧ hiChunk.start ≤ hiChunk.stop :=
  ⟨(C1_coverage_up_to_blank_runs []).1 rfl,
   (C1_coverage_up_to_blank_runs ('h' :: 'i' :: [])).2.2.1 hiChunk
     (by decide)⟩

/-- C3 counterexample: the document "hi" produces a chunk of 1 token,
far below MIN = 2000, so packed chunks do not always reach the lower
bound of the claimed [MIN, MAX] interval. -/
theorem C3_counterexample_chunk_below_min :
    hiChunk ∈ split ('h' :: 'i' :: []) ∧ hiChunk.tokens < 2000 := by
  decide

/-- C3 (amended): every chunk produced by `split` carries the token
count of its own text, and that count is at most MAX = 4000 except when
the chunk is a single oversized atomic block, kept alone and never
merged with neighbours; no lower bound MIN holds in general. -/
theorem C3_tokens_counted_and_bounded_above (text : List Char) (c : Chunk)
    (hc : c ∈ split text) :
    c.tokens = wordCount c.text ∧
    (c.tokens ≤ 4000 ∨ ∃ b ∈ docBlocks text,
      c.text = b.text ∧ 4000 < wordCount b.text) :=
  ((split_sound text).2 c hc).2

/-- Instance of the amended C3 theorem at the concrete document "hi". -/
theorem C3_tokens_counted_and_bounded_above_witness :
    hiChunk.tokens = wordCount hiChunk.text ∧
    (hiChunk.tokens ≤ 4000 ∨ ∃ b ∈ docBlocks ('h' :: 'i' :: []),
      hiChunk.text = b.text ∧ 4000 < wordCount b.text) :=
  C3_tokens_counted_and_bounded_above ('h' :: 'i' :: []) hiChunk (by decide)
